import Mathlib

/-!
Shallow embedding of the graph/algorithm core of gprof2dot.py
(model classes Object/Call/Function/Cycle/Profile and the passes
validate, find_cycles, call_ratios, integrate, prune).

Modelling conventions:
* Python floats are modelled as rationals (all computations the claims
  exercise are exact).
* Event objects are identity-compared singletons; they are modelled by
  natural-number tags.
* A Python dict is modelled by an insertion-ordered association list;
  lookups take the first matching key (keys are unique in all states the
  program builds, since dict insertion overwrites in place).
* `sys.stderr.write` warnings are modelled, where a claim needs them, by a
  Boolean flag; otherwise they are dropped.
* `assert` statements of the source are debugging checks that hold on the
  runs verified here; they are not modelled as failure paths.
-/

namespace Gprof2dot

/-- tol = 2 ** -23 from gprof2dot.py. -/
def tol : ℚ := 1 / 2 ^ 23

/-- Embedding of the module-level function `ratio(numerator, denominator)`.
Returns the computed value together with a flag telling whether a warning
is written to stderr.  Python raises ZeroDivisionError for float division
by zero, which the source catches and turns into 1.0 (the commented
0/0-is-undefined-but-1.0-is-more-useful branch); values below 0 are
returned as 0.0 and values above 1.0 as 1.0, warning only when they are
beyond `tol` from the range. -/
def ratioWarn (numerator denominator : ℚ) : ℚ × Bool :=
  if denominator = 0 then
    (1, false)
  else
    let r := numerator / denominator
    if r < 0 then
      (0, decide (r < -tol))
    else if r > 1 then
      (1, decide (r > 1 + tol))
    else
      (r, false)

/-- The value computed by `ratio(numerator, denominator)`. -/
def pyRatio (numerator denominator : ℚ) : ℚ :=
  (ratioWarn numerator denominator).1

/-- Event tags, modelling the module-level Event singletons (TimeRatio
and TotalTimeRatio stand for the TIME_RATIO and TOTAL_TIME_RATIO
singletons of the source). -/
def CALLS : ℕ := 0

def TIME : ℕ := 1

def TimeRatio : ℕ := 2

def TOTAL_TIME : ℕ := 3

def TotalTimeRatio : ℕ := 4

/-- The sparse event store carried by every Object (Python dict
Event -> float value), as an insertion-ordered association list. -/
abbrev EventMap := List (ℕ × ℚ)

/-- Lookup in the store: dict access `self.events[event]`, first matching
key. -/
def getEv : EventMap → ℕ → Option ℚ
  | [], _ => none
  | (k, v) :: rest, e => if k = e then some v else getEv rest e

/-- `Object.__contains__`: `event in self.events`. -/
def containsEv (m : EventMap) (e : ℕ) : Bool :=
  m.any fun kv => kv.1 = e

/-- Replace the binding of a present key, keeping order, else append
(Python dict assignment). -/
def updEv : EventMap → ℕ → ℚ → EventMap
  | [], e, v => [(e, v)]
  | (k, w) :: rest, e, v =>
      if k = e then (k, v) :: rest else (k, w) :: updEv rest e v

/-- `del self.events[event]` (applied only when present in the source). -/
def delEv (m : EventMap) (e : ℕ) : EventMap :=
  m.filter fun kv => kv.1 ≠ e

/-- `Object.__setitem__`: assigning None deletes the entry, otherwise the
value is stored. -/
def setEv (m : EventMap) (e : ℕ) : Option ℚ → EventMap
  | none => delEv m e
  | some v => updEv m e v

/-- `Object.__getitem__`: raises UndefinedEvent when the event has no
entry.  The exception is modelled by `Except.error`. -/
def objGet (m : EventMap) (e : ℕ) : Except Unit ℚ :=
  match getEv m e with
  | some v => Except.ok v
  | none => Except.error ()

/-- Model of class Call: callee id, derived ratio and prune weight
(None modelled as `Option.none`), and its own event store. -/
structure Call where
  callee_id : ℕ
  ratio : Option ℚ
  weight : Option ℚ
  events : EventMap
deriving DecidableEq, Repr

/-- Model of class Function (named Func because Function is taken in
Lean): id, call list (insertion-ordered dict keyed by callee id), prune
weight, back-reference to the owning Cycle (heap index), event store. -/
structure Func where
  id : ℕ
  calls : List Call
  weight : Option ℚ
  cycle : Option ℕ
  events : EventMap
deriving DecidableEq, Repr

/-- Model of class Cycle: the member set (function ids, in insertion
order) and the event store.  Cycle objects live in a heap (list) and are
referenced by index, modelling Python object identity. -/
structure Cycle where
  functions : List ℕ
  events : EventMap
deriving DecidableEq, Repr

/-- Model of class Profile: the authoritative function dict, the cycles
list (heap indices), the heap of every Cycle object created, and the
profile-wide event store. -/
structure Profile where
  functions : List Func
  cycles : List ℕ
  cycleHeap : List Cycle
  events : EventMap
deriving DecidableEq, Repr

/-- `self.functions[fid]` (dict lookup; ids are unique). -/
def lookupFunc (p : Profile) (fid : ℕ) : Option Func :=
  p.functions.find? fun f => f.id = fid

/-- `callee_id in self.functions`. -/
def hasFunc (p : Profile) (fid : ℕ) : Bool :=
  p.functions.any fun f => f.id = fid

/-- The call stored in function `fid` under key `cid`. -/
def findCall (p : Profile) (fid cid : ℕ) : Option Call :=
  match lookupFunc p fid with
  | none => none
  | some f => f.calls.find? fun c => c.callee_id = cid

/-- `Profile.validate`: for every function delete the calls whose callee
id does not resolve in `self.functions` (the function dict itself is not
mutated, so the membership test is against the incoming profile). -/
def validate (p : Profile) : Profile :=
  { p with
    functions := p.functions.map fun f =>
      { f with calls := f.calls.filter fun c => hasFunc p c.callee_id } }

/-- Generic association-list lookup (models Python dict access for the
auxiliary dicts orders, lowlinks, ranks, totals, partials). -/
def alookup {α : Type} : List (ℕ × α) → ℕ → Option α
  | [], _ => none
  | (k, v) :: rest, e => if k = e then some v else alookup rest e

/-- Generic association-list assignment (replace in place or append). -/
def aset {α : Type} : List (ℕ × α) → ℕ → α → List (ℕ × α)
  | [], k, v => [(k, v)]
  | (k', w) :: rest, k, v =>
      if k' = k then (k', v) :: rest else (k', w) :: aset rest k v

/-- `d[k] += v` with a zero default (the source either pre-initialises the
key or guards the increment with try/except KeyError). -/
def bump : List (ℕ × ℚ) → ℕ → ℚ → List (ℕ × ℚ)
  | [], k, v => [(k, v)]
  | (k', w) :: rest, k, v =>
      if k' = k then (k', w + v) :: rest else (k', w) :: bump rest k v

/-- The member list of the Cycle object at heap index `c`. -/
def cycleMembers (p : Profile) (c : ℕ) : List ℕ :=
  match p.cycleHeap[c]? with
  | some cy => cy.functions
  | none => []

/-- The event store of the Cycle object at heap index `c`. -/
def cycleEvents (p : Profile) (c : ℕ) : EventMap :=
  match p.cycleHeap[c]? with
  | some cy => cy.events
  | none => []

/-- `function.cycle` for the function with id `fid`. -/
def funcCycle (p : Profile) (fid : ℕ) : Option ℕ :=
  match lookupFunc p fid with
  | some f => f.cycle
  | none => none

/-- Apply an update to the Cycle object at heap index `c`. -/
def modifyCycleAt (p : Profile) (c : ℕ) (g : Cycle → Cycle) : Profile :=
  match p.cycleHeap[c]? with
  | none => p
  | some cy => { p with cycleHeap := p.cycleHeap.set c (g cy) }

/-- `self.functions.add(function)` on the Cycle at heap index `c`
(set insertion: no duplicate members). -/
def addCycleMember (p : Profile) (c fid : ℕ) : Profile :=
  modifyCycleAt p c fun cy =>
    if fid ∈ cy.functions then cy
    else { cy with functions := cy.functions ++ [fid] }

/-- `function.cycle = self`. -/
def setFuncCycle (p : Profile) (fid c : ℕ) : Profile :=
  { p with functions := p.functions.map fun f =>
      if f.id = fid then { f with cycle := some c } else f }

/-- Embedding of `Cycle.add_function(function)` on the Cycle at heap
index `c`.  Mirrors the source line by line: insert the function into the
member set; then, when the function already belongs to a cycle, loop over
that cycle and re-add each member unless the guard `function not in
self.functions` holds (the guard tests the function that was just added,
so it is always false and the loop never merges anything); finally
reassign `function.cycle`.  The fuel only feeds the recursive re-add. -/
def addFunction : ℕ → Profile → ℕ → ℕ → Profile
  | 0, p, _, _ => p
  | fuel + 1, p, c, fid =>
      let p1 := addCycleMember p c fid
      let p2 :=
        match funcCycle p1 fid with
        | none => p1
        | some cOld =>
            (cycleMembers p1 cOld).foldl
              (fun acc other =>
                if fid ∈ cycleMembers acc c then acc
                else addFunction fuel acc c other)
              p1
      setFuncCycle p2 fid c
termination_by structural fuel _ _ _ => fuel

/-- Mutable state of one outer `_tarjan` run: the discovery counter, the
explicit path stack, the orders and lowlinks dicts, the visited set shared
across outer runs, and the profile whose Cycle structure is being built. -/
structure TarjanState where
  order : ℕ
  stack : List ℕ
  orders : List (ℕ × ℕ)
  lowlinks : List (ℕ × ℕ)
  visited : List ℕ
  prof : Profile
deriving Repr

/-- Embedding of `Profile._tarjan` (one DFS visit of the function with id
`fid`).  The fuel bounds the DFS nesting depth; `find_cycles` supplies
`|functions| + 1`, which a DFS over distinct functions never exhausts. -/
def tarjanVisit : ℕ → TarjanState → ℕ → TarjanState
  | 0, st, _ => st
  | fuel + 1, st, fid =>
      let st := { st with
        visited := fid :: st.visited,
        orders := aset st.orders fid st.order,
        lowlinks := aset st.lowlinks fid st.order,
        order := st.order + 1 }
      let pos := st.stack.length
      let st := { st with stack := st.stack ++ [fid] }
      let calls :=
        match lookupFunc st.prof fid with
        | some f => f.calls
        | none => []
      let st := calls.foldl
        (fun (st : TarjanState) call =>
          match lookupFunc st.prof call.callee_id with
          | none => st
          | some callee =>
            if (alookup st.orders callee.id).isNone then
              let st := tarjanVisit fuel st callee.id
              { st with lowlinks :=
                  (aset st.lowlinks fid
                    (min ((alookup st.lowlinks fid).getD 0)
                         ((alookup st.lowlinks callee.id).getD 0))) }
            else if callee.id ∈ st.stack then
              { st with lowlinks :=
                  (aset st.lowlinks fid
                    (min ((alookup st.lowlinks fid).getD 0)
                         ((alookup st.orders callee.id).getD 0))) }
            else st)
        st
      if ((alookup st.lowlinks fid).getD 0 : ℕ) = (alookup st.orders fid).getD 0 then
        let members : List ℕ := st.stack.drop pos
        let st := { st with stack := st.stack.take pos }
        if members.length > 1 then
          let cid := st.prof.cycleHeap.length
          let p := { st.prof with cycleHeap := st.prof.cycleHeap ++ [Cycle.mk [] []] }
          let p := members.foldl
            (fun (p : Profile) m => addFunction (p.functions.length + 1) p cid m) p
          { st with prof := p }
        else st
      else st
termination_by structural fuel _ _ => fuel

/-- Embedding of `Profile.find_cycles`: run Tarjan from every not yet
visited function (fresh order counter, stack, orders and lowlinks per
run, shared visited set), then rebuild `self.cycles` from the functions
in iteration order, keeping each referenced Cycle once. -/
def find_cycles (p : Profile) : Profile :=
  let pv := p.functions.foldl
    (fun (acc : Profile × List ℕ) f =>
      if f.id ∈ acc.2 then acc
      else
        let st := tarjanVisit (acc.1.functions.length + 1)
          { order := 0, stack := [], orders := [], lowlinks := [],
            visited := acc.2, prof := acc.1 } f.id
        (st.prof, st.visited))
    (p, ([] : List ℕ))
  let p := pv.1
  let cycles := p.functions.foldl
    (fun (cys : List ℕ) f =>
      match f.cycle with
      | some c => if c ∈ cys then cys else cys ++ [c]
      | none => cys)
    []
  { p with cycles := cycles }

/-- Pass 1 of `Profile.call_ratios`: accumulate, for every non-self-loop
call carrying the event, the call value into the callee's function total,
and also into the callee's cycle total when the call comes from outside
that cycle.  The totals start at zero for every function (and for every
cycle in `self.cycles`). -/
def callRatiosTotals (p : Profile) (event : ℕ) :
    List (ℕ × ℚ) × List (ℕ × ℚ) :=
  let fts0 : List (ℕ × ℚ) := p.functions.map fun f => (f.id, 0)
  let cts0 : List (ℕ × ℚ) := p.cycles.map fun c => (c, 0)
  p.functions.foldl
    (fun (acc : List (ℕ × ℚ) × List (ℕ × ℚ)) f =>
      f.calls.foldl
        (fun (acc : List (ℕ × ℚ) × List (ℕ × ℚ)) call =>
          if call.callee_id ≠ f.id then
            match lookupFunc p call.callee_id with
            | none => acc
            | some callee =>
              if containsEv call.events event then
                let v := (getEv call.events event).getD 0
                let fts := bump acc.1 callee.id v
                let cts :=
                  match callee.cycle with
                  | some cc => if f.cycle ≠ some cc then bump acc.2 cc v else acc.2
                  | none => acc.2
                (fts, cts)
              else acc
          else acc)
        acc)
    (fts0, cts0)

/-- The denominator used by pass 2 of `call_ratios` for a call from `f`
to `callee`: the cycle total when the callee lies in a cycle different
from the caller's, otherwise the callee's function total. -/
def callTotal (p : Profile) (event : ℕ) (f callee : Func) : ℚ :=
  let t := callRatiosTotals p event
  match callee.cycle with
  | some cc =>
      if f.cycle ≠ some cc then (alookup t.2 cc).getD 0
      else (alookup t.1 callee.id).getD 0
  | none => (alookup t.1 callee.id).getD 0

/-- Per-call body of pass 2 of `call_ratios`: a non-self-loop call with
data gets `ratio(call[event], total)`; one without data gets ratio 0.0;
a self-loop keeps ratio None. -/
def callRatiosCall (p : Profile) (event : ℕ) (f : Func) (call : Call) : Call :=
  if call.callee_id ≠ f.id then
    match lookupFunc p call.callee_id with
    | none => call
    | some callee =>
      if containsEv call.events event then
        { call with ratio :=
            (some (pyRatio ((getEv call.events event).getD 0)
                           (callTotal p event f callee))) }
      else
        { call with ratio := some 0 }
  else call

/-- Per-function body of pass 2 of `call_ratios`. -/
def callRatiosFunc (p : Profile) (event : ℕ) (f : Func) : Func :=
  { f with calls := f.calls.map (callRatiosCall p event f) }

/-- Embedding of `Profile.call_ratios`: pass 2 scales every non-self-loop
call value by the accumulated total through the module-level `ratio`
helper. -/
def call_ratios (p : Profile) (event : ℕ) : Profile :=
  { p with functions := p.functions.map (callRatiosFunc p event) }

/-- `function[e] = v` for the function with id `fid`. -/
def setFuncEvent (p : Profile) (fid e : ℕ) (v : ℚ) : Profile :=
  { p with functions := p.functions.map fun f =>
      if f.id = fid then { f with events := updEv f.events e v } else f }

/-- `call[e] = v` for the call stored in function `fid` under key `cid`. -/
def setCallEvent (p : Profile) (fid cid e : ℕ) (v : ℚ) : Profile :=
  { p with functions := p.functions.map fun f =>
      if f.id = fid then
        { f with calls := f.calls.map fun c =>
            if c.callee_id = cid then { c with events := updEv c.events e v }
            else c }
      else f }

/-- `cycle[e] = v` for the Cycle at heap index `c`. -/
def setCycleEvent (p : Profile) (c e : ℕ) (v : ℚ) : Profile :=
  modifyCycleAt p c fun cy => { cy with events := updEv cy.events e v }

/-- Current event value stored on the function with id `fid`. -/
def funcEvent (p : Profile) (fid e : ℕ) : Option ℚ :=
  match lookupFunc p fid with
  | some f => getEv f.events e
  | none => none

/-- Current event value stored on the call from `fid` to `cid`. -/
def callEvent (p : Profile) (fid cid e : ℕ) : Option ℚ :=
  match findCall p fid cid with
  | some c => getEv c.events e
  | none => none

/-- Embedding of `Profile._rank_cycle_function`: BFS-style ranking of the
cycle members from an entry point along internal non-self edges, keeping
the smallest rank found for each member.  Recursion chains are simple
paths, so fuel `|functions| + 1` is never exhausted. -/
def rankCycleFunction : ℕ → Profile → ℕ → ℕ → ℕ → List (ℕ × ℕ) → List (ℕ × ℕ)
  | 0, _, _, _, _, ranks => ranks
  | fuel + 1, p, cid, fid, rank, ranks =>
      let proceed :=
        match alookup ranks fid with
        | none => true
        | some r => decide (r > rank)
      if proceed then
        let ranks := aset ranks fid rank
        let calls :=
          match lookupFunc p fid with
          | some f => f.calls
          | none => []
        calls.foldl
          (fun (ranks : List (ℕ × ℕ)) call =>
            if call.callee_id ≠ fid then
              match lookupFunc p call.callee_id with
              | none => ranks
              | some callee =>
                if callee.cycle = some cid then
                  rankCycleFunction fuel p cid callee.id (rank + 1) ranks
                else ranks
            else ranks)
          ranks
      else ranks
termination_by structural fuel _ _ _ _ _ => fuel

/-- Embedding of `Profile._call_ratios_cycle`: accumulate, walking from
the entry point along strictly rank-increasing internal edges, the ratio
mass entering each member; returns the call_ratios dict and the visited
set. -/
def callRatiosCycle :
    ℕ → Profile → ℕ → ℕ → List (ℕ × ℕ) → List (ℕ × ℚ) → List ℕ →
    List (ℕ × ℚ) × List ℕ
  | 0, _, _, _, _, cratios, visited => (cratios, visited)
  | fuel + 1, p, cid, fid, ranks, cratios, visited =>
      if fid ∈ visited then (cratios, visited)
      else
        let visited := fid :: visited
        let calls :=
          match lookupFunc p fid with
          | some f => f.calls
          | none => []
        calls.foldl
          (fun (acc : List (ℕ × ℚ) × List ℕ) call =>
            if call.callee_id ≠ fid then
              match lookupFunc p call.callee_id with
              | none => acc
              | some callee =>
                if callee.cycle = some cid then
                  if ((alookup ranks callee.id).getD 0 : ℕ) >
                      (alookup ranks fid).getD 0 then
                    let cratios := bump acc.1 callee.id (call.ratio.getD 0)
                    callRatiosCycle fuel p cid callee.id ranks cratios acc.2
                  else acc
                else acc
            else acc)
          (cratios, visited)
termination_by structural fuel _ _ _ _ _ _ => fuel

/-- Embedding of `Profile._integrate_cycle_function`: distribute one entry
point's share of the cycle total to the members, forwarding only along
strictly rank-increasing internal edges, memoised in the partials dict;
external calls contribute their already-integrated outevent.  Updates the
member and internal-call outevents in the profile. -/
def integrateCycleFunction :
    ℕ → Profile → ℕ → ℕ → ℚ → List (ℕ × ℚ) → List (ℕ × ℕ) → List (ℕ × ℚ) →
    ℕ → ℕ → Profile × List (ℕ × ℚ) × ℚ
  | 0, p, _, _, _, parts, _, _, _, _ => (p, parts, 0)
  | fuel + 1, p, cid, fid, partial_ratio, parts, ranks, cratios, out, inev =>
      match alookup parts fid with
      | some v => (p, parts, v)
      | none =>
        let calls :=
          match lookupFunc p fid with
          | some f => f.calls
          | none => []
        let start := partial_ratio * ((funcEvent p fid inev).getD 0)
        let res := calls.foldl
          (fun (acc : Profile × List (ℕ × ℚ) × ℚ) call =>
            if call.callee_id ≠ fid then
              match lookupFunc acc.1 call.callee_id with
              | none => acc
              | some callee =>
                if callee.cycle ≠ some cid then
                  (acc.1, acc.2.1,
                    acc.2.2 + partial_ratio *
                      ((callEvent acc.1 fid call.callee_id out).getD 0))
                else
                  if ((alookup ranks callee.id).getD 0 : ℕ) >
                      (alookup ranks fid).getD 0 then
                    let r := integrateCycleFunction fuel acc.1 cid callee.id
                      partial_ratio acc.2.1 ranks cratios out inev
                    let call_ratio :=
                      pyRatio (call.ratio.getD 0) ((alookup cratios callee.id).getD 0)
                    let call_partial := call_ratio * r.2.2
                    let p := setCallEvent r.1 fid call.callee_id out
                      (((callEvent r.1 fid call.callee_id out).getD 0) + call_partial)
                    (p, r.2.1, acc.2.2 + call_partial)
                  else acc
            else acc)
          (p, parts, start)
        let parts := aset res.2.1 fid res.2.2
        let p := setFuncEvent res.1 fid out
          (((funcEvent res.1 fid out).getD 0) + res.2.2)
        (p, parts, res.2.2)
termination_by structural fuel _ _ _ _ _ _ _ _ _ => fuel

/-- Argument tag for the mutually recursive pair `_integrate_function` /
`_integrate_cycle`, merged into one fuel-indexed definition so that it is
structurally recursive (`_integrate_call` is inlined at its two call
sites). -/
inductive INode where
  | fn (fid : ℕ)
  | cyc (cid : ℕ)

/-- Embedding of `Profile._integrate_function` (tag `fn`) and
`Profile._integrate_cycle` (tag `cyc`).  Returns the updated profile and
the integrated value.  `fn`: functions in a cycle delegate to their
cycle; acyclic functions memoise their outevent as self cost plus the
integrated non-self calls (inlined `_integrate_call`: subtotal =
call.ratio times the callee total, stored on the call).  `cyc`: compute
the cycle outevent as the sum over members of self cost plus calls
leaving the cycle; collect the inbound ratio mass per entry member; zero
the member outevents; then redistribute per entry point through ranks,
call_ratios and `_integrate_cycle_function`. -/
def integrateNode : ℕ → Profile → INode → ℕ → ℕ → Profile × ℚ
  | 0, p, _, _, _ => (p, 0)
  | fuel + 1, p, INode.fn fid, out, inev =>
      (match lookupFunc p fid with
      | none => (p, 0)
      | some f =>
        match f.cycle with
        | some c => integrateNode fuel p (INode.cyc c) out inev
        | none =>
          match getEv f.events out with
          | some v => (p, v)
          | none =>
            let res := f.calls.foldl
              (fun (acc : Profile × ℚ) call =>
                if call.callee_id ≠ fid then
                  let r := call.ratio.getD 0
                  let rec1 := integrateNode fuel acc.1 (INode.fn call.callee_id) out inev
                  let sub := r * rec1.2
                  (setCallEvent rec1.1 fid call.callee_id out sub, acc.2 + sub)
                else acc)
              (p, (getEv f.events inev).getD 0)
            (setFuncEvent res.1 fid out res.2, res.2))
  | fuel + 1, p, INode.cyc cid, out, inev =>
      (match getEv (cycleEvents p cid) out with
      | some v => (p, v)
      | none =>
        let members := cycleMembers p cid
        let res := members.foldl
          (fun (acc : Profile × ℚ) mid =>
            let calls :=
              match lookupFunc acc.1 mid with
              | some f => f.calls
              | none => []
            let sub := calls.foldl
              (fun (acc2 : Profile × ℚ) call =>
                match lookupFunc acc2.1 call.callee_id with
                | none => acc2
                | some callee =>
                  if callee.cycle ≠ some cid then
                    let r := call.ratio.getD 0
                    let rec1 := integrateNode fuel acc2.1 (INode.fn call.callee_id) out inev
                    let s := r * rec1.2
                    (setCallEvent rec1.1 mid call.callee_id out s, acc2.2 + s)
                  else acc2)
              (acc.1, (funcEvent acc.1 mid inev).getD 0)
            (sub.1, acc.2 + sub.2))
          (p, 0)
        let p := res.1
        let total := res.2
        let p := setCycleEvent p cid out total
        let callees := p.functions.foldl
          (fun (acc : List (ℕ × ℚ)) f =>
            if f.cycle ≠ some cid then
              f.calls.foldl
                (fun (acc : List (ℕ × ℚ)) call =>
                  match lookupFunc p call.callee_id with
                  | none => acc
                  | some callee =>
                    if callee.cycle = some cid then
                      bump acc callee.id (call.ratio.getD 0)
                    else acc)
                acc
            else acc)
          []
        let p := members.foldl (fun (p : Profile) mid => setFuncEvent p mid out 0) p
        let p := callees.foldl
          (fun (p : Profile) ec =>
            let ranks := rankCycleFunction (p.functions.length + 1) p cid ec.1 0 []
            let cratios :=
              (callRatiosCycle (p.functions.length + 1) p cid ec.1 ranks [] []).1
            (integrateCycleFunction (p.functions.length + 1) p cid ec.1 ec.2 []
              ranks cratios out inev).1)
          p
        (p, total))
termination_by structural fuel _ _ _ _ => fuel

/-- Embedding of `Profile.integrate(outevent, inevent)`: the (quirky)
per-cycle block stores the sum of every function inevent on the profile
itself under inevent; the main loop aggregates the grand total while
integrating each function in iteration order; the grand total is stored
on the profile under outevent. -/
def integrate (p : Profile) (out inev : ℕ) : Profile :=
  let p := p.cycles.foldl
    (fun (p : Profile) _ =>
      let total := p.functions.foldl
        (fun (t : ℚ) f => t + ((getEv f.events inev).getD 0)) 0
      { p with events := updEv p.events inev total })
    p
  let fuel := 2 * (p.functions.length + p.cycleHeap.length) + 2
  let res := p.functions.foldl
    (fun (acc : Profile × ℚ) f =>
      let total := acc.2 + ((getEv f.events inev).getD 0)
      let p := (integrateNode fuel acc.1 (INode.fn f.id) out inev).1
      (p, total))
    (p, 0)
  { res.1 with events := updEv res.1.events out res.2 }

/-- First block of `Profile.prune`: recompute the prune weights.  A
function takes its TotalTimeRatio when defined (else its weight is left
alone); a call takes its own TotalTimeRatio when present, else the
minimum of the caller and callee values when both are defined (an
UndefinedEvent leaves the call weight alone). -/
def computeWeightsCall (p : Profile) (f : Func) (call : Call) : Call :=
  match lookupFunc p call.callee_id with
  | none => call
  | some callee =>
    if containsEv call.events TotalTimeRatio then
      { call with weight := getEv call.events TotalTimeRatio }
    else
      match getEv f.events TotalTimeRatio,
            getEv callee.events TotalTimeRatio with
      | some a, some b => { call with weight := some (min a b) }
      | _, _ => call

/-- Per-function body of the weight computation. -/
def computeWeightsFunc (p : Profile) (f : Func) : Func :=
  { f with
    weight :=
      (match getEv f.events TotalTimeRatio with
       | some v => some v
       | none => f.weight),
    calls := f.calls.map (computeWeightsCall p f) }

/-- The weight-computation block as a whole. -/
def computeWeights (p : Profile) : Profile :=
  { p with functions := p.functions.map (computeWeightsFunc p) }

/-- A function survives node pruning when its weight is undefined or not
below the threshold. -/
def pruneNodesKeep (node_thres : ℚ) (f : Func) : Bool :=
  match f.weight with
  | some w => !(decide (w < node_thres))
  | none => true

/-- Second block of `Profile.prune`: delete the functions whose (defined)
weight is below the node threshold. -/
def pruneNodes (p : Profile) (node_thres : ℚ) : Profile :=
  { p with functions := p.functions.filter (pruneNodesKeep node_thres) }

/-- A call survives edge pruning when its callee still exists in the
(already node-pruned) function dict and its weight is not a defined value
below the threshold. -/
def pruneEdgesKeep (p : Profile) (edge_thres : ℚ) (call : Call) : Bool :=
  hasFunc p call.callee_id &&
    !(match call.weight with
      | some w => decide (w < edge_thres)
      | none => false)

/-- Per-function body of edge pruning. -/
def pruneEdgesFunc (p : Profile) (edge_thres : ℚ) (f : Func) : Func :=
  { f with calls := f.calls.filter (pruneEdgesKeep p edge_thres) }

/-- Third block of `Profile.prune`: delete the calls whose callee no
longer exists, or whose (defined) weight is below the edge threshold. -/
def pruneEdges (p : Profile) (edge_thres : ℚ) : Profile :=
  { p with functions := p.functions.map (pruneEdgesFunc p edge_thres) }

/-- Embedding of `Profile.prune(node_thres, edge_thres)`: compute the
weights, prune the nodes, then prune the edges. -/
def prune (p : Profile) (node_thres edge_thres : ℚ) : Profile :=
  pruneEdges (pruneNodes (computeWeights p) node_thres) edge_thres

/-!
## Scenario profiles and supporting definitions for the claims
-/

/-- Scenario 1 of the spec: functions A (id 0), B (1), C (2) in a ring
A→B→C→A, external caller X (id 3) with X→A; every call carries one CALLS
sample; self costs (TIME) are 1.0 on A, B, C and 0.0 on X. -/
def pC1 : Profile :=
  { functions :=
      [ { id := 0, weight := none, cycle := none, events := [(TIME, 1)],
          calls := [{ callee_id := 1, ratio := none, weight := none, events := [(CALLS, 1)] }] },
        { id := 1, weight := none, cycle := none, events := [(TIME, 1)],
          calls := [{ callee_id := 2, ratio := none, weight := none, events := [(CALLS, 1)] }] },
        { id := 2, weight := none, cycle := none, events := [(TIME, 1)],
          calls := [{ callee_id := 0, ratio := none, weight := none, events := [(CALLS, 1)] }] },
        { id := 3, weight := none, cycle := none, events := [(TIME, 0)],
          calls := [{ callee_id := 0, ratio := none, weight := none, events := [(CALLS, 1)] }] } ],
    cycles := [], cycleHeap := [], events := [] }

/-- Scenario 1 after `find_cycles`. -/
def pC1cycles : Profile := find_cycles pC1

/-- Scenario 1 after `find_cycles` and `call_ratios` over CALLS. -/
def pC1ratios : Profile := call_ratios pC1cycles CALLS

/-- Scenario 1 fully integrated (TOTAL_TIME from TIME). -/
def pC1total : Profile := integrate pC1ratios TOTAL_TIME TIME

/-- Scenario 2 of the spec: chain A (id 0) → B (1) → C (2) with self
costs 1, 2, 3 and both call ratios already set to 1.0 (the precondition
`integrate` states for ratios). -/
def pC4 : Profile :=
  { functions :=
      [ { id := 0, weight := none, cycle := none, events := [(TIME, 1)],
          calls := [{ callee_id := 1, ratio := some 1, weight := none, events := [] }] },
        { id := 1, weight := none, cycle := none, events := [(TIME, 2)],
          calls := [{ callee_id := 2, ratio := some 1, weight := none, events := [] }] },
        { id := 2, weight := none, cycle := none, events := [(TIME, 3)],
          calls := [] } ],
    cycles := [], cycleHeap := [], events := [] }

/-- Scenario 2 integrated. -/
def pC4total : Profile := integrate pC4 TOTAL_TIME TIME

/-- Transcription of the acyclic-total formula stated by the spec
(`total(F) = inevent(F) + Σ ratio(c)·total(callee(c))` over the non-self
calls of F), checked on every cycle-free function of a profile.  This
definition follows the words of the claim, to be compared against what
the integration pass computed. -/
def specAcyclicTotalEq (p : Profile) (out inev : ℕ) : Bool :=
  p.functions.all fun f =>
    f.cycle.isSome ||
      decide (getEv f.events out =
        some (((getEv f.events inev).getD 0) +
          f.calls.foldl
            (fun t c =>
              if c.callee_id ≠ f.id then
                t + (c.ratio.getD 0) * ((funcEvent p c.callee_id out).getD 0)
              else t)
            0))

/-- First function of the C2 profile: one call to id 1 carrying a CALLS
value of 0. -/
def pC2A : Func :=
  { id := 0, weight := none, cycle := none, events := [(TIME, 1)],
    calls := [{ callee_id := 1, ratio := none, weight := none, events := [(CALLS, 0)] }] }

/-- Second function of the C2 profile: no outgoing calls, so its
accumulated incoming total for CALLS is 0. -/
def pC2B : Func :=
  { id := 1, weight := none, cycle := none, events := [(TIME, 1)], calls := [] }

/-- Profile whose only call has a defined event value (0) and a zero
accumulated denominator total. -/
def pC2 : Profile :=
  { functions := [pC2A, pC2B], cycles := [], cycleHeap := [], events := [] }

/-- Profile for the Cycle.add_function claim: two functions (ids 0, 1)
and two freshly created Cycle objects on the heap. -/
def pC3 : Profile :=
  { functions :=
      [ { id := 0, calls := [], weight := none, cycle := none, events := [] },
        { id := 1, calls := [], weight := none, cycle := none, events := [] } ],
    cycles := [], cycleHeap := [Cycle.mk [] [], Cycle.mk [] []], events := [] }

/-- The C3 sequence: Cycle 0 takes functions 0 and 1, then Cycle 1 takes
function 0 (which already belongs to Cycle 0). -/
def pC3final : Profile :=
  addFunction 10 (addFunction 10 (addFunction 10 pC3 0 0) 0 1) 1 0

/-!
## Claims
-/

/-- C1: on the cycle scenario (A→B→C→A, self costs 1.0 each, external
X→A with ratio 1.0), `find_cycles`, `call_ratios` and `integrate` put
A, B, C in exactly one Cycle, give that Cycle outevent 3.0, and record
3.0 as the integrated outevent on the call X→A. -/
theorem C1_cycle_scenario :
    pC1cycles.cycles = [1] ∧
    cycleMembers pC1cycles 1 = [0, 1, 2] ∧
    (findCall pC1ratios 3 0).map Call.ratio = some (some 1) ∧
    getEv (cycleEvents pC1total 1) TOTAL_TIME = some 3 ∧
    callEvent pC1total 3 0 TOTAL_TIME = some 3 := by
  refine ⟨?_, ?_, ?_, ?_, ?_⟩ <;> with_unfolding_all rfl

/-- C4: on the chain scenario (A→B→C, self costs 1, 2, 3, ratios 1.0),
`integrate` yields totals 6, 5, 3 for A, B, C, and every (acyclic)
function satisfies the acyclic total equation of the spec. -/
theorem C4_chain_scenario :
    funcEvent pC4total 0 TOTAL_TIME = some 6 ∧
    funcEvent pC4total 1 TOTAL_TIME = some 5 ∧
    funcEvent pC4total 2 TOTAL_TIME = some 3 ∧
    specAcyclicTotalEq pC4total TOTAL_TIME TIME = true := by
  refine ⟨?_, ?_, ?_, ?_⟩ <;> with_unfolding_all rfl

/-- C3 (counterexample to the merge): after Cycle 0 has taken functions
0 and 1, calling add_function(0) on Cycle 1 leaves Cycle 1 with member 0
only — function 1 is never merged in, function 0 stays in both Cycle
objects, and the two final cycles (reachable through the cycle fields of
functions 0 and 1) share member 0.  The loop guard of the source tests
the just-added function instead of the iterated member, so the merge
branch is dead code. -/
theorem C3_add_function_no_merge :
    cycleMembers pC3final 0 = [0, 1] ∧
    cycleMembers pC3final 1 = [0] ∧
    funcCycle pC3final 0 = some 1 ∧
    funcCycle pC3final 1 = some 0 := by
  refine ⟨?_, ?_, ?_, ?_⟩ <;> with_unfolding_all rfl

/-- On a zero denominator the `ratio` helper returns 1.0 (the caught
ZeroDivisionError branch). -/
theorem pyRatio_zero_denom (v : ℚ) : pyRatio v 0 = 1 := by
  simp [pyRatio, ratioWarn]

/-- C9 (counterexample): the input 3/1 is above 1 by more than `tol`,
yet the `ratio` helper returns the clamped value 1.0 (with only a
stderr warning) instead of failing on an assertion. -/
theorem C9_ratio_clamps_counterexample :
    ((3 : ℚ) / 1 > 1 + tol) ∧ ratioWarn 3 1 = (1, true) ∧ pyRatio 3 1 = 1 := by
  refine ⟨by norm_num [tol], ?_, ?_⟩ <;> with_unfolding_all rfl

/-- C9 (amended): when the computed ratio falls outside [0, 1] by more
than `tol`, the helper writes a warning to stderr and returns the value
clamped to the nearest bound; it never raises an assertion. -/
theorem C9_ratio_warns_and_clamps (n d : ℚ) (hd : d ≠ 0) :
    (n / d > 1 + tol → ratioWarn n d = (1, true)) ∧
    (n / d < -tol → ratioWarn n d = (0, true)) := by
  have htol : (0 : ℚ) < tol := by norm_num [tol]
  constructor <;> intro h
  · have h1 : ¬ n / d < 0 := by nlinarith
    have h2 : n / d > 1 := by nlinarith
    simp only [ratioWarn, if_neg hd, if_neg h1, if_pos h2, decide_eq_true h]
  · have h1 : n / d < 0 := by nlinarith
    simp only [ratioWarn, if_neg hd, if_pos h1, decide_eq_true h]

/-- Witness for C9_ratio_warns_and_clamps at the concrete input 3/1. -/
theorem C9_ratio_warns_and_clamps_witness :
    (3 : ℚ) ≠ 0 ∧ ((3 : ℚ) / 1 > 1 + tol) ∧ ratioWarn 3 1 = (1, true) :=
  ⟨by norm_num,
   by norm_num [tol],
   (C9_ratio_warns_and_clamps 3 1 (by norm_num)).1 (by norm_num [tol])⟩

/-- Pass 2 of `call_ratios` never changes the callee id of a call. -/
theorem callRatiosCall_callee_id (p : Profile) (e : ℕ) (f : Func) (c : Call) :
    (callRatiosCall p e f c).callee_id = c.callee_id := by
  unfold callRatiosCall
  by_cases h : c.callee_id ≠ f.id
  · rw [if_pos h]
    cases lookupFunc p c.callee_id with
    | none => rfl
    | some callee =>
      by_cases h2 : containsEv c.events e = true
      · simp [h2]
      · simp [h2]
  · rw [if_neg h]

/-- C2 (counterexample): in the two-function profile whose single call
carries CALLS = 0, the accumulated denominator total is 0 and the call
has a defined event value, yet `call_ratios` assigns ratio 1.0 (through
the 0/0 → 1.0 convention of the shared helper), not 0.0 as claimed. -/
theorem C2_zero_total_counterexample :
    lookupFunc pC2 0 = some pC2A ∧
    lookupFunc pC2 1 = some pC2B ∧
    (findCall pC2 0 1).map (fun c => containsEv c.events CALLS) = some true ∧
    callTotal pC2 CALLS pC2A pC2B = 0 ∧
    (findCall (call_ratios pC2 CALLS) 0 1).map Call.ratio = some (some 1) := by
  refine ⟨?_, ?_, ?_, ?_, ?_⟩ <;> with_unfolding_all rfl

/-- C2 (amended): whenever a non-self-loop call has a defined event value
and its accumulated denominator total is zero, `call_ratios` sets the
call ratio to 1.0 — full attribution via the shared zero-division
convention — not 0.0. -/
theorem C2_zero_total_ratio_one (p : Profile) (e fid cid : ℕ)
    (f call callee : _)
    (hf : lookupFunc p fid = some f)
    (hc : f.calls.find? (fun c => c.callee_id = cid) = some call)
    (hne : cid ≠ fid)
    (hcallee : lookupFunc p cid = some callee)
    (hev : containsEv call.events e = true)
    (htot : callTotal p e f callee = 0) :
    (findCall (call_ratios p e) fid cid).map Call.ratio = some (some 1) := by
  have hfid : f.id = fid := by
    have := List.find?_some hf
    simpa using this
  have hcid : call.callee_id = cid := by
    have := List.find?_some hc
    simpa using this
  have hf2 : List.find? (fun x => decide (x.id = fid)) p.functions = some f := hf
  have hlook : lookupFunc (call_ratios p e) fid = some (callRatiosFunc p e f) := by
    show List.find? _ (List.map (callRatiosFunc p e) p.functions) = _
    rw [List.find?_map]
    show Option.map (callRatiosFunc p e)
      (List.find? (fun x => decide (x.id = fid)) p.functions) = _
    rw [hf2]
    rfl
  have hcomp : ((fun (c : Call) => decide (c.callee_id = cid)) ∘
      callRatiosCall p e f) = fun (c : Call) => decide (c.callee_id = cid) := by
    funext c
    simp [Function.comp, callRatiosCall_callee_id]
  have hfind : findCall (call_ratios p e) fid cid =
      some (callRatiosCall p e f call) := by
    rw [findCall, hlook]
    show List.find? _ (List.map (callRatiosCall p e f) f.calls) = _
    rw [List.find?_map, hcomp, hc]
    rfl
  rw [hfind]
  have hne2 : call.callee_id ≠ f.id := by
    rw [hcid, hfid]; exact hne
  show some (callRatiosCall p e f call).ratio = some (some 1)
  have hcallee2 : lookupFunc p call.callee_id = some callee := by
    rw [hcid]; exact hcallee
  unfold callRatiosCall
  rw [if_pos hne2, hcallee2]
  show some (if containsEv call.events e = true then
      ({ call with ratio :=
          (some (pyRatio ((getEv call.events e).getD 0)
                         (callTotal p e f callee))) } : Call)
    else { call with ratio := some 0 }).ratio = some (some 1)
  rw [if_pos hev]
  show some (some (pyRatio ((getEv call.events e).getD 0)
      (callTotal p e f callee))) = some (some 1)
  rw [htot, pyRatio_zero_denom]

/-- Witness for C2_zero_total_ratio_one at the concrete pC2 profile. -/
theorem C2_zero_total_ratio_one_witness :
    (findCall (call_ratios pC2 CALLS) 0 1).map Call.ratio = some (some 1) :=
  C2_zero_total_ratio_one pC2 CALLS 0 1 pC2A
    ({ callee_id := 1, ratio := none, weight := none, events := [(CALLS, 0)] })
    pC2B (by with_unfolding_all rfl) (by with_unfolding_all rfl)
    (by decide) (by with_unfolding_all rfl) (by with_unfolding_all rfl)
    (by with_unfolding_all rfl)

/-- A lookup misses exactly when the store holds no entry for the
event. -/
theorem getEv_eq_none_iff (m : EventMap) (e : ℕ) :
    getEv m e = none ↔ containsEv m e = false := by
  induction m with
  | nil => simp [getEv, containsEv]
  | cons kv rest ih =>
    by_cases h : kv.1 = e
    · simp [getEv, containsEv, h]
    · simp [getEv, containsEv, h, ih]

/-- Deleting an event leaves no entry to look up. -/
theorem getEv_delEv (m : EventMap) (e : ℕ) : getEv (delEv m e) e = none := by
  induction m with
  | nil => rfl
  | cons kv rest ih =>
    by_cases h : kv.1 = e
    · simpa [delEv, List.filter, h] using ih
    · simpa [delEv, List.filter, getEv, h] using ih

/-- C6: `get(event)` raises UndefinedEvent exactly when the store has no
entry for the event, and `set(event, None)` deletes any existing entry,
so the following `get(event)` raises UndefinedEvent. -/
theorem C6_valuestore_get_set (m : EventMap) (e : ℕ) :
    ((objGet m e = Except.error ()) ↔ containsEv m e = false) ∧
    objGet (setEv m e none) e = Except.error () := by
  constructor
  · rw [objGet]
    cases h : getEv m e with
    | none =>
      have hc := (getEv_eq_none_iff m e).mp h
      simp [hc]
    | some v =>
      have hc : containsEv m e = true := by
        cases hcc : containsEv m e
        · rw [(getEv_eq_none_iff m e).mpr hcc] at h; cases h
        · rfl
      simp [hc]
  · rw [objGet]
    have h0 : getEv (setEv m e none) e = none := getEv_delEv m e
    rw [h0]

/-- Mapping the per-function body of `validate` does not change which
ids `hasFunc` can see. -/
theorem hasFunc_validate (p : Profile) (i : ℕ) :
    hasFunc (validate p) i = hasFunc p i := by
  show (p.functions.map _).any _ = _
  rw [List.any_map]
  rfl

/-- C5: `validate` is idempotent — a second pass deletes no further
calls and leaves the functions (and their calls) unchanged. -/
theorem C5_validate_idempotent (p : Profile) :
    validate (validate p) = validate p := by
  have hXf : (validate p).functions.map
      (fun f => { f with calls :=
        (f.calls.filter fun c => hasFunc (validate p) c.callee_id) }) =
      (validate p).functions := by
    show (p.functions.map _).map _ = p.functions.map _
    rw [List.map_map]
    apply List.map_congr_left
    intro f _
    have hcalls : (f.calls.filter fun c => hasFunc p c.callee_id).filter
        (fun c => hasFunc (validate p) c.callee_id) =
        f.calls.filter fun c => hasFunc p c.callee_id := by
      apply List.filter_eq_self.mpr
      intro c hc
      rw [hasFunc_validate]
      exact (List.mem_filter.mp hc).2
    show ({ f with calls := ((f.calls.filter fun c => hasFunc p c.callee_id).filter
        (fun c => hasFunc (validate p) c.callee_id)) } : Func) =
      { f with calls := (f.calls.filter fun c => hasFunc p c.callee_id) }
    rw [hcalls]
  conv_lhs => rw [validate]
  rw [hXf]

/-- Edge pruning does not change which ids `hasFunc` can see. -/
theorem hasFunc_pruneEdges (p : Profile) (e : ℚ) (i : ℕ) :
    hasFunc (pruneEdges p e) i = hasFunc p i := by
  show (p.functions.map _).any _ = _
  rw [List.any_map]
  rfl

/-- C7: with node threshold 0 pruning keeps every function whose
computed weight is positive; with node threshold 1.0 every surviving
function has weight exactly 1.0 (given that all computed weights are
defined ratios at most 1); and after edge pruning, which follows node
pruning, every remaining call has a callee that still exists and no
defined weight below the edge threshold. -/
theorem C7_prune_thresholds (p : Profile) (n e : ℚ)
    (hb : ((computeWeights p).functions.all fun f =>
        match f.weight with
        | some w => decide (w ≤ 1)
        | none => false) = true) :
    (∀ f ∈ (computeWeights p).functions, ∀ w, f.weight = some w → 0 < w →
       ∃ f2 ∈ (prune p 0 e).functions, f2.id = f.id) ∧
    (∀ f2 ∈ (prune p 1 e).functions, f2.weight = some 1) ∧
    (∀ f2 ∈ (prune p n e).functions, ∀ c ∈ f2.calls,
       hasFunc (prune p n e) c.callee_id = true ∧
       ∀ w, c.weight = some w → ¬ w < e) := by
  refine ⟨?_, ?_, ?_⟩
  · intro f hf w hw hpos
    have hkeep : pruneNodesKeep 0 f = true := by
      unfold pruneNodesKeep
      rw [hw]
      simpa using not_lt.mpr (le_of_lt hpos)
    exact ⟨pruneEdgesFunc (pruneNodes (computeWeights p) 0) e f,
      List.mem_map_of_mem _ (List.mem_filter.mpr ⟨hf, hkeep⟩), rfl⟩
  · intro f2 hf2
    obtain ⟨f3, h3, hmap⟩ := List.mem_map.mp hf2
    have h3' := List.mem_filter.mp h3
    have hble := (List.all_eq_true.mp hb) f3 h3'.1
    cases hw : f3.weight with
    | none =>
      rw [hw] at hble
      cases hble
    | some w =>
      rw [hw] at hble
      have hle : w ≤ 1 := by simpa using hble
      have hkeep := h3'.2
      unfold pruneNodesKeep at hkeep
      rw [hw] at hkeep
      have hge : ¬ w < 1 := by simpa using hkeep
      have hw1 : w = 1 := le_antisymm hle (not_lt.mp hge)
      rw [← hmap]
      show f3.weight = some 1
      rw [hw, hw1]
  · intro f2 hf2 c hc
    obtain ⟨f3, h3, hmap⟩ := List.mem_map.mp hf2
    rw [← hmap] at hc
    have hc' := List.mem_filter.mp hc
    have hkeep := hc'.2
    unfold pruneEdgesKeep at hkeep
    rw [Bool.and_eq_true] at hkeep
    constructor
    · show hasFunc (pruneEdges (pruneNodes (computeWeights p) n) e) c.callee_id = true
      rw [hasFunc_pruneEdges]
      exact hkeep.1
    · intro w hw hlt
      have hne := hkeep.2
      rw [hw] at hne
      simp at hne
      exact absurd hlt (not_lt.mpr hne)

/-- Two-function profile used to witness the prune claims: both
functions carry a defined TotalTimeRatio at most 1. -/
def pC7w : Profile :=
  { functions :=
      [ { id := 0, calls := [], weight := none, cycle := none,
          events := [(TotalTimeRatio, 1)] },
        { id := 1, calls := [], weight := none, cycle := none,
          events := [(TotalTimeRatio, 1/2)] } ],
    cycles := [], cycleHeap := [], events := [] }

/-- Witness for C7_prune_thresholds on pC7w with thresholds 1 and 0. -/
theorem C7_prune_thresholds_witness :
    (((computeWeights pC7w).functions.all fun f =>
        match f.weight with
        | some w => decide (w ≤ 1)
        | none => false) = true) ∧
    (∀ f2 ∈ (prune pC7w 1 0).functions, f2.weight = some 1) :=
  ⟨by with_unfolding_all rfl,
   (C7_prune_thresholds pC7w 1 0 (by with_unfolding_all rfl)).2.1⟩

/-- In a list of functions with pairwise distinct ids, the dict lookup of
a member id returns that member. -/
theorem find?_id_of_nodup (l : List Func) (hnd : (l.map Func.id).Nodup)
    (f : Func) (hf : f ∈ l) :
    l.find? (fun x => x.id = f.id) = some f := by
  induction l with
  | nil => cases hf
  | cons a t ih =>
    have hnd' := List.nodup_cons.mp hnd
    rcases List.mem_cons.mp hf with h | h
    · subst h
      simp [List.find?]
    · have hne : ¬ a.id = f.id := by
        intro hcontra
        exact hnd'.1 (hcontra ▸ List.mem_map_of_mem Func.id h)
      rw [List.find?_cons_of_neg _ (by simpa using hne)]
      exact ih hnd'.2 h

/-- C10: a function with no TotalTimeRatio entry and no previously
computed weight survives pruning at every threshold, and an incoming
call to it whose weight is also undefined survives edge pruning in every
caller that itself survived node pruning. -/
theorem C10_prune_keeps_undefined_weight (p : Profile) (n e : ℚ) (f : Func)
    (hnd : (p.functions.map Func.id).Nodup)
    (hf : f ∈ p.functions)
    (httr : containsEv f.events TotalTimeRatio = false)
    (hw : f.weight = none) :
    hasFunc (prune p n e) f.id = true ∧
    (∀ g ∈ p.functions, ∀ c ∈ g.calls, c.callee_id = f.id →
      containsEv c.events TotalTimeRatio = false → c.weight = none →
      ∀ g2, lookupFunc (prune p n e) g.id = some g2 →
        ∃ c2 ∈ g2.calls, c2.callee_id = f.id) := by
  have hget : getEv f.events TotalTimeRatio = none :=
    (getEv_eq_none_iff _ _).mpr httr
  have hcwW : (computeWeightsFunc p f).weight = none := by
    show (match getEv f.events TotalTimeRatio with
          | some v => some v
          | none => f.weight) = none
    rw [hget, hw]
  have hkeepf : pruneNodesKeep n (computeWeightsFunc p f) = true := by
    unfold pruneNodesKeep
    rw [hcwW]
  have hmemq : computeWeightsFunc p f ∈
      (pruneNodes (computeWeights p) n).functions :=
    List.mem_filter.mpr ⟨List.mem_map_of_mem _ hf, hkeepf⟩
  have hhasq : hasFunc (pruneNodes (computeWeights p) n) f.id = true := by
    apply List.any_eq_true.mpr
    exact ⟨computeWeightsFunc p f, hmemq, by show decide (f.id = f.id) = true; simp⟩
  constructor
  · show hasFunc (pruneEdges (pruneNodes (computeWeights p) n) e) f.id = true
    rw [hasFunc_pruneEdges]
    exact hhasq
  · intro g hg c hc hcid hcev hcw g2 hg2
    have hg2mem : g2 ∈ (prune p n e).functions := List.mem_of_find?_eq_some hg2
    have hg2id : g2.id = g.id := by simpa using List.find?_some hg2
    obtain ⟨f3, hf3q, hf3e⟩ := List.mem_map.mp hg2mem
    have hf3mem := (List.mem_filter.mp hf3q).1
    obtain ⟨g4, hg4, hg4e⟩ := List.mem_map.mp hf3mem
    have hg4id : g4.id = g.id := by
      rw [← hg2id, ← hf3e, ← hg4e]
      exact rfl
    have hg4g : g4 = g :=
      List.inj_on_of_nodup_map hnd hg4 hg hg4id
    rw [hg4g] at hg4e
    have hfid : lookupFunc p c.callee_id = some f := by
      rw [hcid]
      exact find?_id_of_nodup p.functions hnd f hf
    have hcc : computeWeightsCall p g c = c := by
      unfold computeWeightsCall
      rw [hfid]
      simp only [hcev, Bool.false_eq_true, if_false]
      rw [hget]
      cases hgg : getEv g.events TotalTimeRatio <;> rfl
    have hkeepc : pruneEdgesKeep (pruneNodes (computeWeights p) n) e c = true := by
      unfold pruneEdgesKeep
      rw [hcw, hcid, hhasq]
      rfl
    refine ⟨c, ?_, hcid⟩
    have hcalls : g2.calls =
        (g.calls.map (computeWeightsCall p g)).filter
          (pruneEdgesKeep (pruneNodes (computeWeights p) n) e) := by
      rw [← hf3e, ← hg4e]
      rfl
    rw [hcalls]
    exact List.mem_filter.mpr ⟨hcc ▸ List.mem_map_of_mem _ hc, hkeepc⟩

/-- A function with no TotalTimeRatio entry and no weight, target of
the C10 witness. -/
def pC10wF : Func :=
  { id := 1, calls := [], weight := none, cycle := none, events := [] }

/-- Witness profile for C10: a weighted caller (id 0) with one
weightless call into the weightless function id 1. -/
def pC10w : Profile :=
  { functions :=
      [ { id := 0, weight := none, cycle := none,
          events := [(TotalTimeRatio, 1/2)],
          calls := [{ callee_id := 1, ratio := none, weight := none, events := [] }] },
        pC10wF ],
    cycles := [], cycleHeap := [], events := [] }

/-- Witness for C10_prune_keeps_undefined_weight on pC10w. -/
theorem C10_prune_keeps_undefined_weight_witness :
    ((pC10w.functions.map Func.id).Nodup ∧
     pC10wF ∈ pC10w.functions ∧
     containsEv pC10wF.events TotalTimeRatio = false ∧
     pC10wF.weight = none) ∧
    hasFunc (prune pC10w 0 1) pC10wF.id = true :=
  ⟨⟨by simp [pC10w, pC10wF],
    List.mem_cons_of_mem _ (List.mem_cons_self _ _),
    rfl, rfl⟩,
   (C10_prune_keeps_undefined_weight pC10w 0 1 pC10wF (by simp [pC10w, pC10wF])
     (List.mem_cons_of_mem _ (List.mem_cons_self _ _)) rfl rfl).1⟩

/-!
## Graph-level notions for the cycle-detection claims

`find_cycles` reads, of the profile, only the function ids and the callee
ids of their calls; the definitions below capture that shape and the
reachability notions the correctness argument for Tarjan's algorithm
needs.
-/

/-- The call-graph shape of a profile: for each function, its id and the
callee ids of its calls, in insertion order. -/
def shape (p : Profile) : List (ℕ × List ℕ) :=
  p.functions.map fun f => (f.id, f.calls.map Call.callee_id)

/-- The raw successor ids of the function with id `v` (empty when `v`
does not resolve). -/
def succs (p : Profile) (v : ℕ) : List ℕ :=
  match lookupFunc p v with
  | some f => f.calls.map Call.callee_id
  | none => []

/-- The directed edge relation the Tarjan traversal follows: a call from
a resolving function to a resolving callee. -/
def EdgeP (p : Profile) (v w : ℕ) : Prop :=
  hasFunc p v = true ∧ w ∈ succs p v ∧ hasFunc p w = true

/-- Reachability along call edges. -/
def ReachP (p : Profile) : ℕ → ℕ → Prop :=
  Relation.ReflTransGen (EdgeP p)

/-- Mutual reachability: `w` lies in the strongly connected component of
`v`. -/
def InSCC (p : Profile) (v w : ℕ) : Prop :=
  ReachP p v w ∧ ReachP p w v

/-- The strongly connected component of `v`, as a set of ids. -/
def sccSet (p : Profile) (v : ℕ) : Set ℕ :=
  { w | InSCC p v w }

/-- `v` lies on an actual cycle of length at least 2 (its component has
another member); the program creates Cycle objects exactly for these. -/
def NontrivialSCC (p : Profile) (v : ℕ) : Prop :=
  ∃ w, w ≠ v ∧ InSCC p v w

/-- The member set of the Cycle at heap index `c` coincides with the set
`S`. -/
def MembersMatch (p : Profile) (c : ℕ) (S : Set ℕ) : Prop :=
  ∀ w, w ∈ cycleMembers p c ↔ w ∈ S

/-- The collection of Cycle membership sets a profile exposes (the
observable output the determinism claim compares). -/
def membershipSets (p : Profile) : Set (Set ℕ) :=
  { S | ∃ c ∈ p.cycles, S = { v | v ∈ cycleMembers p c } }

/-- Discovery order of `x` in a Tarjan state. -/
def numOf (st : TarjanState) (x : ℕ) : Option ℕ :=
  alookup st.orders x

/-- Lowlink of `x` in a Tarjan state. -/
def llOf (st : TarjanState) (x : ℕ) : Option ℕ :=
  alookup st.lowlinks x

/-- `x` has been discovered in the current run. -/
def Ordered (st : TarjanState) (x : ℕ) : Prop :=
  (numOf st x).isSome

/-- `x` is on the path stack (discovered, component not yet emitted). -/
def Gray (st : TarjanState) (x : ℕ) : Prop :=
  x ∈ st.stack

/-- `x` has been discovered and its component already emitted. -/
def Black (st : TarjanState) (x : ℕ) : Prop :=
  Ordered st x ∧ x ∉ st.stack

/-!
### Association-list and shape transport lemmas
-/

theorem alookup_aset_self {α : Type} (l : List (ℕ × α)) (k : ℕ) (v : α) :
    alookup (aset l k v) k = some v := by
  induction l with
  | nil => simp [aset, alookup]
  | cons kv rest ih =>
    by_cases h : kv.1 = k
    · simp [aset, alookup, h]
    · simp [aset, alookup, h, ih]

theorem alookup_aset_ne {α : Type} (l : List (ℕ × α)) (k k' : ℕ) (v : α)
    (h : k' ≠ k) : alookup (aset l k v) k' = alookup l k' := by
  have h2 : ¬ k = k' := fun hc => h hc.symm
  induction l with
  | nil => simp [aset, alookup, h2]
  | cons kv rest ih =>
    by_cases hk : kv.1 = k
    · simp [aset, alookup, hk, h2]
    · by_cases hk' : kv.1 = k' <;> simp [aset, alookup, hk, hk', h, ih]

theorem alookup_eq_find? {α : Type} (l : List (ℕ × α)) (e : ℕ) :
    alookup l e = (l.find? fun kv => kv.1 = e).map Prod.snd := by
  induction l with
  | nil => rfl
  | cons kv rest ih =>
    by_cases h : kv.1 = e
    · simp [alookup, List.find?, h]
    · simp only [alookup, if_neg h, ih]
      rw [List.find?_cons_of_neg _ (by simpa using h)]

theorem any_eq_find?_isSome (l : List Func) (v : ℕ) :
    (l.any fun f => f.id = v) = (l.find? fun f => f.id = v).isSome := by
  induction l with
  | nil => rfl
  | cons f rest ih =>
    by_cases h : f.id = v
    · rw [List.find?_cons_of_pos _ (by simpa using h)]
      simp [h]
    · rw [List.find?_cons_of_neg _ (by simpa using h)]
      simpa [h] using ih

/-- `hasFunc` is the definedness of the dict lookup. -/
theorem hasFunc_eq_isSome (p : Profile) (v : ℕ) :
    hasFunc p v = (lookupFunc p v).isSome :=
  any_eq_find?_isSome p.functions v

/-- Looking a key up in the shape is looking the function up and taking
its callee ids. -/
theorem alookup_shape (p : Profile) (v : ℕ) :
    alookup (shape p) v =
      (lookupFunc p v).map fun f => f.calls.map Call.callee_id := by
  rw [alookup_eq_find?]
  show ((p.functions.map fun f => (f.id, f.calls.map Call.callee_id)).find?
    fun kv => decide (kv.1 = v)).map Prod.snd = _
  rw [List.find?_map]
  show (Option.map _ (p.functions.find? fun f => decide (f.id = v))).map _ = _
  rw [lookupFunc]
  cases p.functions.find? fun f => decide (f.id = v) <;> rfl

/-- The successor list is determined by the shape. -/
theorem succs_eq_shape (p : Profile) (v : ℕ) :
    succs p v = (alookup (shape p) v).getD [] := by
  rw [alookup_shape, succs]
  cases lookupFunc p v <;> rfl

/-- Resolvability is determined by the shape. -/
theorem hasFunc_eq_shape (p : Profile) (v : ℕ) :
    hasFunc p v = (alookup (shape p) v).isSome := by
  rw [hasFunc_eq_isSome, alookup_shape]
  cases lookupFunc p v <;> rfl

/-- Profiles with the same shape have the same successor lists. -/
theorem succs_congr {p q : Profile} (h : shape q = shape p) (v : ℕ) :
    succs q v = succs p v := by
  rw [succs_eq_shape, succs_eq_shape, h]

/-- Profiles with the same shape resolve the same ids. -/
theorem hasFunc_congr {p q : Profile} (h : shape q = shape p) (v : ℕ) :
    hasFunc q v = hasFunc p v := by
  rw [hasFunc_eq_shape, hasFunc_eq_shape, h]

/-- Profiles with the same shape have the same call edges. -/
theorem EdgeP_congr {p q : Profile} (h : shape q = shape p) :
    EdgeP q = EdgeP p := by
  funext v w
  unfold EdgeP
  rw [succs_congr h, hasFunc_congr h, hasFunc_congr h]

/-!
### Shape preservation by the cycle-building operations
-/

theorem shape_setFuncCycle (p : Profile) (fid c : ℕ) :
    shape (setFuncCycle p fid c) = shape p := by
  show (p.functions.map _).map _ = _
  rw [List.map_map]
  apply List.map_congr_left
  intro f _
  by_cases h : f.id = fid <;> simp [Function.comp, h]

theorem shape_modifyCycleAt (p : Profile) (c : ℕ) (g : Cycle → Cycle) :
    shape (modifyCycleAt p c g) = shape p := by
  unfold modifyCycleAt
  cases p.cycleHeap[c]? <;> rfl

theorem shape_addCycleMember (p : Profile) (c fid : ℕ) :
    shape (addCycleMember p c fid) = shape p :=
  shape_modifyCycleAt p c _

theorem shape_addFunction :
    ∀ (fuel : ℕ) (p : Profile) (c fid : ℕ),
    shape (addFunction fuel p c fid) = shape p
  | 0, p, c, fid => rfl
  | fuel + 1, p, c, fid => by
    rw [addFunction, shape_setFuncCycle]
    have hfold : ∀ (l : List ℕ) (q : Profile), shape q = shape p →
        shape (l.foldl
          (fun acc other =>
            if fid ∈ cycleMembers acc c then acc
            else addFunction fuel acc c other) q) = shape p := by
      intro l
      induction l with
      | nil => intro q hq; exact hq
      | cons x rest ih =>
        intro q hq
        by_cases h : fid ∈ cycleMembers q c
        · simpa [h] using ih q hq
        · simp only [List.foldl_cons, if_neg h]
          exact ih _ ((shape_addFunction fuel q c x).trans hq)
    cases funcCycle (addCycleMember p c fid) fid with
    | none => exact shape_addCycleMember p c fid
    | some cOld => exact hfold _ _ (shape_addCycleMember p c fid)

/-!
### Effect of the cycle-creation block of the Tarjan pop
-/

theorem cycleMembers_addCycleMember_self (p : Profile) (c fid : ℕ)
    (h : c < p.cycleHeap.length) :
    cycleMembers (addCycleMember p c fid) c =
      (if fid ∈ cycleMembers p c then cycleMembers p c
       else cycleMembers p c ++ [fid]) := by
  cases hcy : p.cycleHeap[c]? with
  | none =>
    have := List.getElem?_eq_none_iff.mp hcy
    omega
  | some cy =>
    unfold cycleMembers addCycleMember modifyCycleAt
    rw [hcy]
    simp only
    rw [List.getElem?_set_self h]
    by_cases hm : fid ∈ cy.functions <;> simp [hm]

theorem cycleMembers_addCycleMember_ne (p : Profile) (c c' fid : ℕ)
    (h : c' ≠ c) :
    cycleMembers (addCycleMember p c fid) c' = cycleMembers p c' := by
  unfold addCycleMember modifyCycleAt
  cases hcy : p.cycleHeap[c]? with
  | none => rfl
  | some cy =>
    unfold cycleMembers
    simp only
    rw [List.getElem?_set_ne (fun hc => h hc.symm)]

theorem cycleHeap_addCycleMember_length (p : Profile) (c fid : ℕ) :
    (addCycleMember p c fid).cycleHeap.length = p.cycleHeap.length := by
  unfold addCycleMember modifyCycleAt
  cases p.cycleHeap[c]? with
  | none => rfl
  | some cy => simp

theorem funcCycle_addCycleMember (p : Profile) (c fid x : ℕ) :
    funcCycle (addCycleMember p c fid) x = funcCycle p x := by
  unfold funcCycle lookupFunc addCycleMember modifyCycleAt
  cases p.cycleHeap[c]? <;> rfl

theorem lookupFunc_setFuncCycle (p : Profile) (fid c x : ℕ) :
    lookupFunc (setFuncCycle p fid c) x =
      (lookupFunc p x).map fun f =>
        if f.id = fid then { f with cycle := some c } else f := by
  show List.find? _ (List.map _ _) = _
  rw [List.find?_map]
  have hpred : ((fun (f : Func) => decide (f.id = x)) ∘
      fun f => if f.id = fid then { f with cycle := some c } else f) =
      fun (f : Func) => decide (f.id = x) := by
    funext f
    by_cases h : f.id = fid <;> simp [Function.comp, h]
  rw [hpred]
  rfl

theorem funcCycle_setFuncCycle_self (p : Profile) (fid c : ℕ)
    (h : hasFunc p fid = true) :
    funcCycle (setFuncCycle p fid c) fid = some c := by
  rw [hasFunc_eq_isSome] at h
  obtain ⟨f, hf⟩ := Option.isSome_iff_exists.mp h
  have hfid : f.id = fid := by simpa using List.find?_some hf
  unfold funcCycle
  rw [lookupFunc_setFuncCycle, hf]
  simp [hfid]

theorem funcCycle_setFuncCycle_ne (p : Profile) (fid c x : ℕ)
    (h : x ≠ fid) :
    funcCycle (setFuncCycle p fid c) x = funcCycle p x := by
  unfold funcCycle
  rw [lookupFunc_setFuncCycle]
  cases hf : lookupFunc p x with
  | none => rfl
  | some f =>
    have hfid : f.id = x := by simpa using List.find?_some hf
    simp [hfid, h]

theorem cycleMembers_setFuncCycle (p : Profile) (fid c c' : ℕ) :
    cycleMembers (setFuncCycle p fid c) c' = cycleMembers p c' := rfl

theorem cycleHeap_setFuncCycle_length (p : Profile) (fid c : ℕ) :
    (setFuncCycle p fid c).cycleHeap.length = p.cycleHeap.length := rfl

theorem foldl_fix {α β : Type _} (f : β → α → β) (q : β)
    (hf : ∀ x, f q x = q) : ∀ l : List α, l.foldl f q = q := by
  intro l
  induction l with
  | nil => rfl
  | cons x rest ih => rw [List.foldl_cons, hf x]; exact ih

/-- Because the merge loop of `Cycle.add_function` is dead code, a call
on a valid heap index reduces to inserting the member and reassigning
its cycle pointer. -/
theorem addFunction_eq (fuel : ℕ) (p : Profile) (c fid : ℕ)
    (h : c < p.cycleHeap.length) :
    addFunction (fuel + 1) p c fid =
      setFuncCycle (addCycleMember p c fid) fid c := by
  have hmem : fid ∈ cycleMembers (addCycleMember p c fid) c := by
    rw [cycleMembers_addCycleMember_self p c fid h]
    by_cases hm : fid ∈ cycleMembers p c <;> simp [hm]
  have hfold : ∀ l : List ℕ, List.foldl
      (fun acc other => if fid ∈ cycleMembers acc c then acc
        else addFunction fuel acc c other) (addCycleMember p c fid) l =
      addCycleMember p c fid :=
    foldl_fix _ _ (fun x => by rw [if_pos hmem])
  show setFuncCycle
    (match funcCycle (addCycleMember p c fid) fid with
     | none => addCycleMember p c fid
     | some cOld => List.foldl
        (fun acc other => if fid ∈ cycleMembers acc c then acc
          else addFunction fuel acc c other)
        (addCycleMember p c fid)
        (cycleMembers (addCycleMember p c fid) cOld)) fid c = _
  cases funcCycle (addCycleMember p c fid) fid with
  | none => rfl
  | some cOld =>
    exact congrArg (fun q => setFuncCycle q fid c)
      (hfold (cycleMembers (addCycleMember p c fid) cOld))

/-- Proof-side name for the cycle-creation block of the Tarjan pop: push
a fresh Cycle object and add every popped member to it. -/
def pushSeg (p : Profile) (ms : List ℕ) : Profile :=
  ms.foldl
    (fun q m => addFunction (q.functions.length + 1) q p.cycleHeap.length m)
    { p with cycleHeap := p.cycleHeap ++ [Cycle.mk [] []] }

/-- Intermediate state of the member-insertion fold of a pop: the fresh
cycle `cid` holds exactly the processed members, which also point to it;
everything else is as before the pop. -/
structure SegInv (p : Profile) (cid : ℕ) (done : List ℕ) (q : Profile) :
    Prop where
  shape_eq : shape q = shape p
  heap_len : q.cycleHeap.length = p.cycleHeap.length + 1
  members_cid : cycleMembers q cid = done
  members_ne : ∀ c', c' ≠ cid → cycleMembers q c' = cycleMembers p c'
  cyc_done : ∀ x ∈ done, funcCycle q x = some cid
  cyc_rest : ∀ x, x ∉ done → funcCycle q x = funcCycle p x

theorem SegInv_step (p q : Profile) (done : List ℕ) (m : ℕ)
    (hinv : SegInv p p.cycleHeap.length done q)
    (hm : m ∉ done) (hreal : hasFunc p m = true) :
    SegInv p p.cycleHeap.length (done ++ [m])
      (addFunction (q.functions.length + 1) q p.cycleHeap.length m) := by
  have hcid : p.cycleHeap.length < q.cycleHeap.length := by
    rw [hinv.heap_len]; omega
  rw [addFunction_eq _ _ _ _ hcid]
  have hshape2 : shape (addCycleMember q p.cycleHeap.length m) = shape p :=
    (shape_addCycleMember q _ m).trans hinv.shape_eq
  refine ⟨?_, ?_, ?_, ?_, ?_, ?_⟩
  · exact (shape_setFuncCycle _ _ _).trans hshape2
  · rw [cycleHeap_setFuncCycle_length, cycleHeap_addCycleMember_length,
      hinv.heap_len]
  · rw [cycleMembers_setFuncCycle,
      cycleMembers_addCycleMember_self _ _ _ hcid, hinv.members_cid]
    simp [hm]
  · intro c' hc'
    rw [cycleMembers_setFuncCycle, cycleMembers_addCycleMember_ne _ _ _ _ hc']
    exact hinv.members_ne c' hc'
  · intro x hx
    rcases List.mem_append.mp hx with hx | hx
    · have hxm : x ≠ m := fun hc => hm (hc ▸ hx)
      rw [funcCycle_setFuncCycle_ne _ _ _ _ hxm, funcCycle_addCycleMember]
      exact hinv.cyc_done x hx
    · have hxm : x = m := by simpa using hx
      subst hxm
      apply funcCycle_setFuncCycle_self
      rw [hasFunc_congr hshape2]
      exact hreal
  · intro x hx
    have hxm : x ≠ m := fun hc => hx (by simp [hc])
    have hxd : x ∉ done := fun hc => hx (by simp [hc])
    rw [funcCycle_setFuncCycle_ne _ _ _ _ hxm, funcCycle_addCycleMember]
    exact hinv.cyc_rest x hxd

theorem SegInv_fold (p : Profile) :
    ∀ (rest : List ℕ) (q : Profile) (done : List ℕ),
    SegInv p p.cycleHeap.length done q →
    (done ++ rest).Nodup →
    (∀ m ∈ rest, hasFunc p m = true) →
    SegInv p p.cycleHeap.length (done ++ rest)
      (rest.foldl
        (fun q m => addFunction (q.functions.length + 1) q p.cycleHeap.length m)
        q) := by
  intro rest
  induction rest with
  | nil => intro q done hinv _ _; simpa using hinv
  | cons m rest' ih =>
    intro q done hinv hnd hreal
    have hdisj : done.Disjoint (m :: rest') := List.disjoint_of_nodup_append hnd
    have hm : m ∉ done := fun hc => hdisj hc (List.mem_cons_self m rest')
    have hnd' : ((done ++ [m]) ++ rest').Nodup := by
      rw [List.append_assoc]
      simpa using hnd
    have hstep := SegInv_step p q done m hinv hm (hreal m (List.mem_cons_self m rest'))
    have := ih _ (done ++ [m]) hstep hnd'
      (fun x hx => hreal x (List.mem_cons_of_mem m hx))
    simpa [List.append_assoc] using this

/-- The full effect of one pop on the profile. -/
theorem pushSeg_spec (p : Profile) (ms : List ℕ) (hnd : ms.Nodup)
    (hreal : ∀ m ∈ ms, hasFunc p m = true) :
    SegInv p p.cycleHeap.length ms (pushSeg p ms) := by
  have hinit : SegInv p p.cycleHeap.length []
      { p with cycleHeap := p.cycleHeap ++ [Cycle.mk [] []] } := by
    refine ⟨rfl, by simp, ?_, ?_, by simp, fun x _ => rfl⟩
    · unfold cycleMembers
      simp only
      rw [List.getElem?_concat_length]
    · intro c' hc'
      unfold cycleMembers
      simp only
      rw [List.getElem?_append]
      by_cases h : c' < p.cycleHeap.length
      · simp [h]
      · have hgt : p.cycleHeap.length < c' := by omega
        have h1 : p.cycleHeap[c']? = none :=
          List.getElem?_eq_none_iff.mpr (by omega)
        have h2 : ([Cycle.mk [] []] : List Cycle)[c' - p.cycleHeap.length]? = none :=
          List.getElem?_eq_none_iff.mpr (by simp; omega)

        simp [h, h1, h2]
  simpa using SegInv_fold p ms _ [] hinit (by simpa using hnd) hreal

/-!
### The run invariant of one Tarjan traversal

All facts are relative to the base profile `p₀` fixing the graph shape
and to the profile `pB` the run started from (whose cycle assignment the
run extends).  Colours are relative to the run: a node is ordered once
the run assigned it a discovery number, gray while on the path stack,
black once its component was emitted.
-/

/-- `x` was discovered between the states `st` and `st'`. -/
def NewO (st st' : TarjanState) (x : ℕ) : Prop :=
  Ordered st' x ∧ ¬ Ordered st x

/-- Number of functions of `p₀` not yet discovered (the fuel budget). -/
def unorderedCount (p₀ : Profile) (st : TarjanState) : ℕ :=
  ((p₀.functions.map Func.id).filter fun k => (numOf st k).isNone).length

structure InvRun (p₀ pB : Profile) (st : TarjanState) : Prop where
  shape_eq : shape st.prof = shape p₀
  orders_real : ∀ v, Ordered st v → hasFunc p₀ v = true
  orders_lt : ∀ v n, numOf st v = some n → n < st.order
  orders_inj : ∀ v w n, numOf st v = some n → numOf st w = some n → v = w
  ll_dom : ∀ v, (llOf st v).isSome ↔ Ordered st v
  ll_le : ∀ v n m, numOf st v = some n → llOf st v = some m → m ≤ n
  stack_ordered : ∀ v ∈ st.stack, Ordered st v
  stack_nodup : st.stack.Nodup
  stack_sorted : st.stack.Pairwise fun a b =>
      ∀ na nb, numOf st a = some na → numOf st b = some nb → na < nb
  gray_witness : ∀ v ∈ st.stack,
      ∃ u ∈ st.stack, ReachP p₀ v u ∧ numOf st u = llOf st v
  black_closed : ∀ v, Black st v → ∀ w, InSCC p₀ v w → Black st w
  visited_sup : ∀ v, Ordered st v → v ∈ st.visited
  prof_done : ∀ v, Black st v → NontrivialSCC p₀ v →
      ∃ c, funcCycle st.prof v = some c ∧ MembersMatch st.prof c (sccSet p₀ v)
  prof_keep : ∀ v, ¬ Black st v → funcCycle st.prof v = funcCycle pB v
  prof_trivial : ∀ v, ¬ NontrivialSCC p₀ v →
      funcCycle st.prof v = funcCycle pB v
  heap_keep : ∀ c, c < pB.cycleHeap.length →
      st.prof.cycleHeap[c]? = pB.cycleHeap[c]?
  heap_len_mono : pB.cycleHeap.length ≤ st.prof.cycleHeap.length

/-- Postcondition of one visit: the invariant again, monotone evolution
of the bookkeeping, and the facts about the newly discovered nodes the
enclosing frame needs. -/
structure VPost (p₀ pB : Profile) (st st' : TarjanState) (v : ℕ) : Prop where
  inv : InvRun p₀ pB st'
  orders_mono : ∀ x n, numOf st x = some n → numOf st' x = some n
  order_mono : st.order ≤ st'.order
  v_num : numOf st' v = some st.order
  stack_pres : ∃ ext, st'.stack = st.stack ++ ext ∧
      (∀ x ∈ ext, NewO st st' x) ∧ (ext = [] ∨ v ∈ ext)
  v_pop_ll : v ∉ st'.stack → llOf st' v = some st.order
  ll_frozen : ∀ x ∈ st.stack, llOf st' x = llOf st x
  visited_mono : ∀ x ∈ st.visited, x ∈ st'.visited
  news_num_ge : ∀ x, NewO st st' x → ∀ n, numOf st' x = some n →
      st.order ≤ n
  news_reach : ∀ x, NewO st st' x → ReachP p₀ v x
  news_explored : ∀ x, NewO st st' x → ∀ w, EdgeP p₀ x w → Ordered st' w
  news_llstrict : ∀ x, NewO st st' x → x ∈ st'.stack →
      ∀ n m, numOf st' x = some n → llOf st' x = some m → m < n
  news_llbound : ∀ x, NewO st st' x → x ∈ st'.stack →
      ∀ mv mx, llOf st' v = some mv → llOf st' x = some mx → mv ≤ mx
  news_edgell : ∀ x, NewO st st' x → x ∈ st'.stack →
      ∀ w, EdgeP p₀ x w → w ∈ st'.stack →
      ∀ nw nx mx, numOf st' w = some nw → numOf st' x = some nx →
      llOf st' x = some mx → nw < nx → mx ≤ nw
  black_mono : ∀ x, Black st x → Black st' x
  visited_new : ∀ x ∈ st'.visited, x ∈ st.visited ∨ Ordered st' x

/-!
### Generic auxiliary lemmas for the Tarjan proof
-/

/-- A reflexive-transitive path from inside a region to outside it
crosses the border somewhere. -/
theorem reach_first_exit {α : Type _} {R : α → α → Prop} {P : α → Prop}
    {a z : α} (h : Relation.ReflTransGen R a z) (ha : P a) (hz : ¬ P z) :
    ∃ x y, P x ∧ ¬ P y ∧ R x y ∧ Relation.ReflTransGen R a x ∧
      Relation.ReflTransGen R y z := by
  induction h using Relation.ReflTransGen.head_induction_on with
  | refl => exact absurd ha hz
  | @head a' c hstep htail ih =>
    by_cases hc : P c
    · obtain ⟨x, y, hx, hy, hxy, hax, hyz⟩ := ih hc
      exact ⟨x, y, hx, hy, hxy, Relation.ReflTransGen.head hstep hax, hyz⟩
    · exact ⟨a', c, ha, hc, hstep, Relation.ReflTransGen.refl, htail⟩

theorem filter_length_mono {α : Type _} (l : List α) (P Q : α → Bool)
    (hsub : ∀ x, Q x = true → P x = true) :
    (l.filter Q).length ≤ (l.filter P).length := by
  induction l with
  | nil => simp
  | cons a t ih =>
    by_cases hq : Q a = true
    · simp [hq, hsub a hq]
      omega
    · rw [List.filter_cons_of_neg (by simpa using hq)]
      by_cases hp : P a = true
      · rw [List.filter_cons_of_pos hp]
        simp
        omega
      · rw [List.filter_cons_of_neg (by simpa using hp)]
        exact ih

theorem filter_length_lt {α : Type _} (l : List α) (P Q : α → Bool)
    (hsub : ∀ x, Q x = true → P x = true) (v : α) (hv : v ∈ l)
    (hPv : P v = true) (hQv : Q v = false) :
    (l.filter Q).length < (l.filter P).length := by
  induction l with
  | nil => cases hv
  | cons a t ih =>
    rcases List.mem_cons.mp hv with hva | hvt
    · subst hva
      rw [List.filter_cons_of_pos hPv, List.filter_cons_of_neg (by simp [hQv])]
      have := filter_length_mono t P Q hsub
      simp
      omega
    · by_cases hq : Q a = true
      · rw [List.filter_cons_of_pos hq, List.filter_cons_of_pos (hsub a hq)]
        simpa using ih hvt
      · rw [List.filter_cons_of_neg (by simpa using hq)]
        by_cases hp : P a = true
        · rw [List.filter_cons_of_pos hp]
          have := ih hvt
          simp
          omega
        · rw [List.filter_cons_of_neg (by simpa using hp)]
          exact ih hvt

/-- Inside the about-to-pop segment (grays with discovery number at
least the root's), every node reaches the root: descend along lowlink
witnesses, whose numbers strictly decrease. -/
theorem segment_to_root (p₀ pB : Profile) (cur : TarjanState) (v : ℕ)
    (nv : ℕ) (inv : InvRun p₀ pB cur) (hnv : numOf cur v = some nv)
    (hgele : ∀ x, x ∈ cur.stack → ∀ nx, numOf cur x = some nx → nv ≤ nx →
      x = v ∨ (∃ mx, llOf cur x = some mx ∧ mx < nx ∧ nv ≤ mx)) :
    ∀ nx x, x ∈ cur.stack → numOf cur x = some nx → nv ≤ nx →
      ReachP p₀ x v := by
  intro nx
  induction nx using Nat.strong_induction_on with
  | _ nx ih =>
    intro x hx hnum hge
    rcases hgele x hx nx hnum hge with hxv | ⟨mx, hll, hlt, hgemx⟩
    · subst hxv; exact Relation.ReflTransGen.refl
    · obtain ⟨u, hu, hreach, hnumu⟩ := inv.gray_witness x hx
      rw [hll] at hnumu
      exact Relation.ReflTransGen.trans hreach
        (ih mx hlt u hu hnumu hgemx)

/-!
### Id-level view of the traversal loop body
-/

/-- The body of the call loop of `_tarjan`, expressed on the callee id
(the code reads `callee.id`, which equals the call key). -/
def tstep (fuel : ℕ) (fid : ℕ) (st : TarjanState) (w : ℕ) : TarjanState :=
  match lookupFunc st.prof w with
  | none => st
  | some _ =>
    if (alookup st.orders w).isNone then
      let st := tarjanVisit fuel st w
      { st with lowlinks :=
          (aset st.lowlinks fid
            (min ((alookup st.lowlinks fid).getD 0)
                 ((alookup st.lowlinks w).getD 0))) }
    else if w ∈ st.stack then
      { st with lowlinks :=
          (aset st.lowlinks fid
            (min ((alookup st.lowlinks fid).getD 0)
                 ((alookup st.orders w).getD 0))) }
    else st

theorem tstep_eq_body (fuel fid : ℕ) (st : TarjanState) (call : Call) :
    (match lookupFunc st.prof call.callee_id with
     | none => st
     | some callee =>
       if (alookup st.orders callee.id).isNone then
         let st := tarjanVisit fuel st callee.id
         { st with lowlinks :=
             (aset st.lowlinks fid
               (min ((alookup st.lowlinks fid).getD 0)
                    ((alookup st.lowlinks callee.id).getD 0))) }
       else if callee.id ∈ st.stack then
         { st with lowlinks :=
             (aset st.lowlinks fid
               (min ((alookup st.lowlinks fid).getD 0)
                    ((alookup st.orders callee.id).getD 0))) }
       else st) = tstep fuel fid st call.callee_id := by
  unfold tstep
  cases hl : lookupFunc st.prof call.callee_id with
  | none => rfl
  | some callee =>
    have hid : callee.id = call.callee_id := by
      simpa using List.find?_some hl
    simp only [hid]

theorem foldl_ext {α β : Type _} (f g : β → α → β)
    (h : ∀ b a, f b a = g b a) : ∀ (l : List α) (b : β),
    l.foldl f b = l.foldl g b := by
  have : f = g := funext fun b => funext fun a => h b a
  intro l b
  rw [this]

/-- The call loop of `_tarjan` only looks at the callee ids. -/
theorem loop_view (fuel fid : ℕ) (calls : List Call) (st : TarjanState) :
    calls.foldl
      (fun (st : TarjanState) call =>
        match lookupFunc st.prof call.callee_id with
        | none => st
        | some callee =>
          if (alookup st.orders callee.id).isNone then
            let st := tarjanVisit fuel st callee.id
            { st with lowlinks :=
                (aset st.lowlinks fid
                  (min ((alookup st.lowlinks fid).getD 0)
                       ((alookup st.lowlinks callee.id).getD 0))) }
          else if callee.id ∈ st.stack then
            { st with lowlinks :=
                (aset st.lowlinks fid
                  (min ((alookup st.lowlinks fid).getD 0)
                       ((alookup st.orders callee.id).getD 0))) }
          else st) st =
    (calls.map Call.callee_id).foldl (tstep fuel fid) st := by
  rw [List.foldl_map]
  exact foldl_ext _ _ (fun b a => tstep_eq_body fuel fid b a) calls st

/-!
### Small facts about components and states
-/

theorem InSCC.refl (p : Profile) (v : ℕ) : InSCC p v v :=
  ⟨Relation.ReflTransGen.refl, Relation.ReflTransGen.refl⟩

theorem InSCC.symm {p : Profile} {v w : ℕ} (h : InSCC p v w) : InSCC p w v :=
  ⟨h.2, h.1⟩

theorem InSCC.trans {p : Profile} {u v w : ℕ} (h1 : InSCC p u v)
    (h2 : InSCC p v w) : InSCC p u w :=
  ⟨Relation.ReflTransGen.trans h1.1 h2.1,
   Relation.ReflTransGen.trans h2.2 h1.2⟩

theorem sccSet_congr {p : Profile} {v w : ℕ} (h : InSCC p v w) :
    sccSet p w = sccSet p v := by
  ext z
  exact ⟨fun hz => h.trans hz, fun hz => (h.symm).trans hz⟩

theorem cycleMembers_ne_nil_valid (p : Profile) (c : ℕ)
    (h : cycleMembers p c ≠ []) : c < p.cycleHeap.length := by
  by_contra hc
  have : p.cycleHeap[c]? = none := List.getElem?_eq_none_iff.mpr (by omega)
  unfold cycleMembers at h
  rw [this] at h
  exact h rfl

theorem unorderedCount_mono (p₀ : Profile) (st st' : TarjanState)
    (h : ∀ x n, numOf st x = some n → numOf st' x = some n) :
    unorderedCount p₀ st' ≤ unorderedCount p₀ st := by
  apply filter_length_mono
  intro x hx
  simp only [Option.isNone_iff_eq_none, decide_eq_true_eq] at hx ⊢
  cases hnum : numOf st x with
  | none => rfl
  | some n => rw [h x n hnum] at hx; cases hx

theorem unorderedCount_lt (p₀ : Profile) (st st' : TarjanState) (v : ℕ)
    (h : ∀ x n, numOf st x = some n → numOf st' x = some n)
    (hv : ¬ Ordered st v) (hv' : Ordered st' v)
    (hreal : hasFunc p₀ v = true) :
    unorderedCount p₀ st' < unorderedCount p₀ st := by
  have hsub : ∀ x, ((numOf st' x).isNone = true) → ((numOf st x).isNone = true) := by
    intro x hx
    simp only [Option.isNone_iff_eq_none] at hx ⊢
    cases hnum : numOf st x with
    | none => rfl
    | some n => rw [h x n hnum] at hx; cases hx
  have hvmem : v ∈ p₀.functions.map Func.id := by
    rw [hasFunc_eq_isSome] at hreal
    obtain ⟨f, hf⟩ := Option.isSome_iff_exists.mp hreal
    have hfv : f.id = v := by simpa using List.find?_some hf
    exact hfv ▸ List.mem_map_of_mem Func.id (List.mem_of_find?_eq_some hf)
  have hP : (numOf st v).isNone = true := by
    rw [Option.isNone_iff_eq_none]
    exact Option.not_isSome_iff_eq_none.mp hv
  have hQ : (numOf st' v).isNone = false := by
    obtain ⟨n, hn⟩ := Option.isSome_iff_exists.mp hv'
    rw [hn]
    rfl
  exact filter_length_lt _ _ _ hsub v hvmem hP hQ

/-- The loop invariant of the call loop of one visit: `st` is the state
at visit entry (before the push of `v`), `done` the processed prefix of
the successor ids, `cur` the current state. -/
structure LoopInv (p₀ pB : Profile) (st : TarjanState) (v : ℕ)
    (done : List ℕ) (cur : TarjanState) : Prop where
  inv : InvRun p₀ pB cur
  orders_mono : ∀ x n, numOf st x = some n → numOf cur x = some n
  order_mono : st.order < cur.order
  v_num : numOf cur v = some st.order
  v_gray : v ∈ cur.stack
  stack_pres : ∃ ext, cur.stack = st.stack ++ ext ∧ ∀ x ∈ ext, NewO st cur x
  ll_frozen : ∀ x ∈ st.stack, llOf cur x = llOf st x
  visited_mono : ∀ x ∈ st.visited, x ∈ cur.visited
  news_num_ge : ∀ x, NewO st cur x → ∀ n, numOf cur x = some n →
      st.order ≤ n
  news_reach : ∀ x, NewO st cur x → ReachP p₀ v x
  news_explored : ∀ x, NewO st cur x → x ≠ v → ∀ w, EdgeP p₀ x w →
      Ordered cur w
  v_explored : ∀ w ∈ done, hasFunc p₀ w = true → Ordered cur w
  news_llstrict : ∀ x, NewO st cur x → x ≠ v → x ∈ cur.stack →
      ∀ n m, numOf cur x = some n → llOf cur x = some m → m < n
  news_llbound : ∀ x, NewO st cur x → x ≠ v → x ∈ cur.stack →
      ∀ mv mx, llOf cur v = some mv → llOf cur x = some mx → mv ≤ mx
  news_edgell : ∀ x, NewO st cur x → x ≠ v → x ∈ cur.stack →
      ∀ w, EdgeP p₀ x w →
      w ∈ cur.stack → ∀ nw nx mx, numOf cur w = some nw →
      numOf cur x = some nx → llOf cur x = some mx → nw < nx → mx ≤ nw
  v_edgell : ∀ w ∈ done, w ∈ cur.stack → ∀ nw mv, numOf cur w = some nw →
      llOf cur v = some mv → nw < st.order → mv ≤ nw
  black_mono : ∀ x, Black st x → Black cur x
  v_fresh : ¬ Ordered st v
  v_not_base : v ∉ st.stack
  visited_new : ∀ x ∈ cur.visited, x ∈ st.visited ∨ Ordered cur x

/-- The lowlink-merge update `lowlinks[v] = min(lowlinks[v], b)` the two
lowering branches of the loop body perform. -/
def llMin (cur : TarjanState) (v : ℕ) (b : ℕ) : TarjanState :=
  { cur with lowlinks :=
      (aset cur.lowlinks v (min ((alookup cur.lowlinks v).getD 0) b)) }

theorem llMin_v (cur : TarjanState) (v b mv : ℕ)
    (hmv : llOf cur v = some mv) :
    llOf (llMin cur v b) v = some (min mv b) := by
  show alookup (aset cur.lowlinks v _) v = _
  rw [alookup_aset_self]
  have : (alookup cur.lowlinks v).getD 0 = mv := by
    show (llOf cur v).getD 0 = mv
    rw [hmv]; rfl
  rw [this]

theorem llMin_ne (cur : TarjanState) (v b x : ℕ) (h : x ≠ v) :
    llOf (llMin cur v b) x = llOf cur x := by
  show alookup (aset cur.lowlinks v _) x = _
  rw [alookup_aset_ne _ _ _ _ h]
  rfl

theorem numOf_llMin (cur : TarjanState) (v b x : ℕ) :
    numOf (llMin cur v b) x = numOf cur x := rfl

theorem InvRun_llMin (p₀ pB : Profile) (cur : TarjanState) (v b mv : ℕ)
    (inv : InvRun p₀ pB cur) (hvst : v ∈ cur.stack)
    (hmv : llOf cur v = some mv)
    (hbw : mv ≤ b ∨ ∃ u ∈ cur.stack, ReachP p₀ v u ∧ numOf cur u = some b) :
    InvRun p₀ pB (llMin cur v b) := by
  obtain ⟨nv, hnv⟩ := Option.isSome_iff_exists.mp (inv.stack_ordered v hvst)
  have hmle : mv ≤ nv := inv.ll_le v nv mv hnv hmv
  refine ⟨inv.shape_eq, inv.orders_real, inv.orders_lt, inv.orders_inj,
    ?_, ?_, inv.stack_ordered, inv.stack_nodup, inv.stack_sorted, ?_,
    inv.black_closed, inv.visited_sup, inv.prof_done, inv.prof_keep,
    inv.prof_trivial, inv.heap_keep, inv.heap_len_mono⟩
  · intro x
    show (llOf (llMin cur v b) x).isSome ↔ Ordered cur x
    by_cases hx : x = v
    · subst hx
      rw [llMin_v cur x b mv hmv]
      simp only [Option.isSome_some, true_iff]
      show (numOf cur x).isSome
      rw [hnv]; rfl
    · rw [llMin_ne cur v b x hx]
      exact inv.ll_dom x
  · intro x n m hn hm
    rw [numOf_llMin] at hn
    by_cases hx : x = v
    · subst hx
      rw [llMin_v cur x b mv hmv] at hm
      have h1 := Option.some.inj hm
      rw [hnv] at hn
      have h2 := Option.some.inj hn
      have := min_le_left mv b
      omega
    · rw [llMin_ne cur v b x hx] at hm
      exact inv.ll_le x n m hn hm
  · intro x hx
    show ∃ u ∈ cur.stack, ReachP p₀ x u ∧
      numOf (llMin cur v b) u = llOf (llMin cur v b) x
    by_cases hxv : x = v
    · subst hxv
      rcases le_or_lt mv b with hcase | hcase
      · obtain ⟨u, hu, hr, hnu⟩ := inv.gray_witness x hx
        refine ⟨u, hu, hr, ?_⟩
        rw [numOf_llMin, llMin_v cur x b mv hmv, min_eq_left hcase, ← hmv]
        exact hnu
      · rcases hbw with hle | ⟨u, hu, hr, hnu⟩
        · omega
        · refine ⟨u, hu, hr, ?_⟩
          rw [numOf_llMin, llMin_v cur x b mv hmv,
            min_eq_right (le_of_lt hcase), hnu]
    · obtain ⟨u, hu, hr, hnu⟩ := inv.gray_witness x hx
      refine ⟨u, hu, hr, ?_⟩
      rw [numOf_llMin, llMin_ne cur v b x hxv, hnu]

/-!
### Unfolding one visit into entry bookkeeping, call loop and pop
-/

/-- The entry bookkeeping of one visit: mark visited, assign discovery
order and initial lowlink, bump the counter, push onto the path stack. -/
def pushV (st : TarjanState) (v : ℕ) : TarjanState :=
  { st with
    visited := v :: st.visited,
    orders := aset st.orders v st.order,
    lowlinks := aset st.lowlinks v st.order,
    order := st.order + 1,
    stack := st.stack ++ [v] }

/-- The pop check at the end of one visit: when the lowlink equals the
discovery order, pop the segment above `pos` and, if it has more than
one member, create a Cycle from it. -/
def tvPop (pos fid : ℕ) (stL : TarjanState) : TarjanState :=
  if (alookup stL.lowlinks fid).getD 0 = (alookup stL.orders fid).getD 0 then
    let members : List ℕ := stL.stack.drop pos
    let st2 := { stL with stack := stL.stack.take pos }
    if members.length > 1 then
      { st2 with prof := pushSeg st2.prof members }
    else st2
  else stL

theorem numOf_pushV_self (st : TarjanState) (v : ℕ) :
    numOf (pushV st v) v = some st.order := by
  show alookup (aset st.orders v st.order) v = _
  rw [alookup_aset_self]

theorem numOf_pushV_ne (st : TarjanState) (v x : ℕ) (h : x ≠ v) :
    numOf (pushV st v) x = numOf st x := by
  show alookup (aset st.orders v st.order) x = _
  rw [alookup_aset_ne _ _ _ _ h]
  rfl

theorem llOf_pushV_self (st : TarjanState) (v : ℕ) :
    llOf (pushV st v) v = some st.order := by
  show alookup (aset st.lowlinks v st.order) v = _
  rw [alookup_aset_self]

theorem llOf_pushV_ne (st : TarjanState) (v x : ℕ) (h : x ≠ v) :
    llOf (pushV st v) x = llOf st x := by
  show alookup (aset st.lowlinks v st.order) x = _
  rw [alookup_aset_ne _ _ _ _ h]
  rfl

/-- One visit at positive fuel is: push the node, run the call loop on
the successor ids, then the pop check with `pos` the entry stack depth. -/
theorem tarjanVisit_eq (fuel : ℕ) (st : TarjanState) (fid : ℕ) :
    tarjanVisit (fuel + 1) st fid =
    tvPop st.stack.length fid
      ((succs st.prof fid).foldl (tstep fuel fid) (pushV st fid)) := by
  have hcalls :
      (match lookupFunc st.prof fid with
       | some f => f.calls
       | none => []).map Call.callee_id = succs st.prof fid := by
    unfold succs
    cases lookupFunc st.prof fid <;> rfl
  conv_lhs => rw [tarjanVisit]
  rw [loop_view, hcalls]
  rfl

theorem Ordered_pushV (st : TarjanState) (v x : ℕ) :
    Ordered (pushV st v) x ↔ x = v ∨ Ordered st x := by
  by_cases h : x = v
  · subst h
    simp [Ordered, numOf_pushV_self]
  · simp only [Ordered, numOf_pushV_ne st v x h, h, false_or]

theorem Black_pushV_of (st : TarjanState) (v x : ℕ) (hv : ¬ Ordered st v)
    (hb : Black st x) : Black (pushV st v) x := by
  have hxv : x ≠ v := fun hc => hv (hc ▸ hb.1)
  refine ⟨(Ordered_pushV st v x).mpr (Or.inr hb.1), ?_⟩
  show x ∉ st.stack ++ [v]
  simp only [List.mem_append, List.mem_singleton]
  exact fun hc => hc.elim hb.2 hxv

/-- At the head of the call loop the loop invariant holds for the
pushed state and the empty processed prefix. -/
theorem LoopInv_init (p₀ pB : Profile) (st : TarjanState) (v : ℕ)
    (inv : InvRun p₀ pB st) (hv : ¬ Ordered st v)
    (hreal : hasFunc p₀ v = true) :
    LoopInv p₀ pB st v [] (pushV st v) := by
  have hvstack : v ∉ st.stack := fun h => hv (inv.stack_ordered v h)
  have hnew : ∀ x, NewO st (pushV st v) x → x = v := by
    intro x ⟨ho, hno⟩
    rcases (Ordered_pushV st v x).mp ho with h | h
    · exact h
    · exact absurd h hno
  refine ⟨?_, ?_, ?_, numOf_pushV_self st v, ?_, ?_, ?_, ?_, ?_, ?_, ?_,
    ?_, ?_, ?_, ?_, ?_, fun x hb => Black_pushV_of st v x hv hb, hv,
    hvstack, ?_⟩
  · refine ⟨inv.shape_eq, ?ora, ?orl, ?orj, ?lld, ?lle, ?sto, ?stn,
      ?sts, ?gw, ?bc, ?vs, ?pd, ?pk, inv.prof_trivial, inv.heap_keep,
      inv.heap_len_mono⟩
    · intro x hx
      rcases (Ordered_pushV st v x).mp hx with h | h
      · exact h ▸ hreal
      · exact inv.orders_real x h
    · intro x n hn
      show n < st.order + 1
      by_cases hx : x = v
      · rw [hx, numOf_pushV_self] at hn
        have := Option.some.inj hn
        omega
      · rw [numOf_pushV_ne st v x hx] at hn
        have := inv.orders_lt x n hn
        omega
    · intro x y n hx hy
      by_cases hxv : x = v <;> by_cases hyv : y = v
      · omega
      · rw [hxv, numOf_pushV_self] at hx
        rw [numOf_pushV_ne st v y hyv] at hy
        have h1 := Option.some.inj hx
        have h2 := inv.orders_lt y n hy
        omega
      · rw [hyv, numOf_pushV_self] at hy
        rw [numOf_pushV_ne st v x hxv] at hx
        have h1 := Option.some.inj hy
        have h2 := inv.orders_lt x n hx
        omega
      · rw [numOf_pushV_ne st v x hxv] at hx
        rw [numOf_pushV_ne st v y hyv] at hy
        exact inv.orders_inj x y n hx hy
    · intro x
      by_cases hx : x = v
      · rw [hx, llOf_pushV_self]
        simp only [Option.isSome_some, true_iff]
        exact (Ordered_pushV st v v).mpr (Or.inl rfl)
      · rw [llOf_pushV_ne st v x hx, Ordered_pushV st v x]
        simp only [hx, false_or]
        exact inv.ll_dom x
    · intro x n m hn hm
      by_cases hx : x = v
      · rw [hx, numOf_pushV_self] at hn
        rw [hx, llOf_pushV_self] at hm
        have h1 := Option.some.inj hn
        have h2 := Option.some.inj hm
        omega
      · rw [numOf_pushV_ne st v x hx] at hn
        rw [llOf_pushV_ne st v x hx] at hm
        exact inv.ll_le x n m hn hm
    · intro x hx
      rcases List.mem_append.mp hx with h | h
      · exact (Ordered_pushV st v x).mpr (Or.inr (inv.stack_ordered x h))
      · have : x = v := by simpa using h
        exact (Ordered_pushV st v x).mpr (Or.inl this)
    · exact inv.stack_nodup.append (List.nodup_singleton v)
        (fun a ha hb => hvstack ((List.mem_singleton.mp hb) ▸ ha))
    · show (st.stack ++ [v]).Pairwise _
      rw [List.pairwise_append]
      refine ⟨?_, List.pairwise_singleton _ v, ?_⟩
      · refine inv.stack_sorted.imp_of_mem ?_
        intro a b ha hb hab na nb hna hnb
        have hav : a ≠ v := fun hc => hvstack (hc ▸ ha)
        have hbv : b ≠ v := fun hc => hvstack (hc ▸ hb)
        rw [numOf_pushV_ne st v a hav] at hna
        rw [numOf_pushV_ne st v b hbv] at hnb
        exact hab na nb hna hnb
      · intro a ha b hb na nb hna hnb
        have hbv : b = v := by simpa using hb
        subst hbv
        have hav : a ≠ b := fun hc => hvstack (hc ▸ ha)
        rw [numOf_pushV_ne _ _ _ hav] at hna
        rw [numOf_pushV_self] at hnb
        have h1 := inv.orders_lt a na hna
        have h2 := Option.some.inj hnb
        omega
    · intro x hx
      rcases List.mem_append.mp hx with h | h
      · obtain ⟨u, hu, hr, hnu⟩ := inv.gray_witness x h
        have huv : u ≠ v := fun hc => hvstack (hc ▸ hu)
        have hxv : x ≠ v := fun hc => hvstack (hc ▸ h)
        refine ⟨u, List.mem_append_left _ hu, hr, ?_⟩
        rw [numOf_pushV_ne st v u huv, llOf_pushV_ne st v x hxv]
        exact hnu
      · have hxv : x = v := by simpa using h
        rw [hxv]
        refine ⟨v, List.mem_append_right _ (List.mem_singleton_self v),
          Relation.ReflTransGen.refl, ?_⟩
        rw [numOf_pushV_self, llOf_pushV_self]
    · intro x hb w hscc
      have hxv : x ≠ v := by
        intro hc
        subst hc
        exact hb.2 (List.mem_append_right _ (List.mem_singleton_self x))
      have hxo : Ordered st x := by
        rcases (Ordered_pushV st v x).mp hb.1 with h | h
        · exact absurd h hxv
        · exact h
      have hxs : x ∉ st.stack := fun hc =>
        hb.2 (List.mem_append_left _ hc)
      exact Black_pushV_of st v w hv (inv.black_closed x ⟨hxo, hxs⟩ w hscc)
    · intro x hx
      rcases (Ordered_pushV st v x).mp hx with h | h
      · exact h ▸ List.mem_cons_self v st.visited
      · exact List.mem_cons_of_mem v (inv.visited_sup x h)
    · intro x hb hnt
      have hxv : x ≠ v := by
        intro hc
        subst hc
        exact hb.2 (List.mem_append_right _ (List.mem_singleton_self x))
      have hxo : Ordered st x := by
        rcases (Ordered_pushV st v x).mp hb.1 with h | h
        · exact absurd h hxv
        · exact h
      have hxs : x ∉ st.stack := fun hc => hb.2 (List.mem_append_left _ hc)
      exact inv.prof_done x ⟨hxo, hxs⟩ hnt
    · intro x hb
      apply inv.prof_keep
      intro hc
      exact hb (Black_pushV_of st v x hv hc)
  · intro x n hn
    have hxv : x ≠ v := by
      intro hc
      subst hc
      exact hv (by rw [Ordered, hn]; rfl)
    rw [numOf_pushV_ne st v x hxv]
    exact hn
  · show st.order < st.order + 1
    omega
  · exact List.mem_append_right _ (List.mem_singleton_self v)
  · refine ⟨[v], rfl, fun x hx => ?_⟩
    have hxv : x = v := by simpa using hx
    rw [hxv]
    exact ⟨(Ordered_pushV st v v).mpr (Or.inl rfl), hv⟩
  · intro x hx
    have hxv : x ≠ v := fun hc => hvstack (hc ▸ hx)
    exact llOf_pushV_ne st v x hxv
  · intro x hx
    exact List.mem_cons_of_mem v hx
  · intro x hx n hn
    rw [hnew x hx, numOf_pushV_self] at hn
    have := Option.some.inj hn
    omega
  · intro x hx
    rw [hnew x hx]
    exact Relation.ReflTransGen.refl
  · intro x hx hxv
    exact absurd (hnew x hx) hxv
  · intro w hw
    exact absurd hw (List.not_mem_nil w)
  · intro x hx hxv
    exact absurd (hnew x hx) hxv
  · intro x hx hxv
    exact absurd (hnew x hx) hxv
  · intro x hx hxv
    exact absurd (hnew x hx) hxv
  · intro w hw
    exact absurd hw (List.not_mem_nil w)
  · intro x hx
    rcases List.mem_cons.mp hx with h | h
    · exact Or.inr (h ▸ (Ordered_pushV st v x).mpr (Or.inl h))
    · exact Or.inl h

/-- Extending the processed prefix by one successor that leaves the
state untouched: only the two per-successor obligations are new. -/
theorem LoopInv_extend (p₀ pB : Profile) (st : TarjanState) (v w : ℕ)
    (done : List ℕ) (cur : TarjanState)
    (li : LoopInv p₀ pB st v done cur)
    (hex : hasFunc p₀ w = true → Ordered cur w)
    (hed : ∀ nw mv, w ∈ cur.stack → numOf cur w = some nw →
      llOf cur v = some mv → nw < st.order → mv ≤ nw) :
    LoopInv p₀ pB st v (done ++ [w]) cur := by
  refine ⟨li.inv, li.orders_mono, li.order_mono, li.v_num, li.v_gray,
    li.stack_pres, li.ll_frozen, li.visited_mono, li.news_num_ge,
    li.news_reach, li.news_explored, ?_, li.news_llstrict, li.news_llbound,
    li.news_edgell, ?_, li.black_mono, li.v_fresh, li.v_not_base,
    li.visited_new⟩
  · intro w' hw' hrw'
    rcases List.mem_append.mp hw' with h | h
    · exact li.v_explored w' h hrw'
    · have hww : w' = w := by simpa using h
      rw [hww] at hrw' ⊢
      exact hex hrw'
  · intro w' hw' hst nw mv hnw hmv hlt
    rcases List.mem_append.mp hw' with h | h
    · exact li.v_edgell w' h hst nw mv hnw hmv hlt
    · have hww : w' = w := by simpa using h
      rw [hww] at hst hnw
      exact hed nw mv hst hnw hmv hlt

/-- Loop branch: the callee id does not resolve (`KeyError` made total);
the state is unchanged. -/
theorem LoopInv_none (p₀ pB : Profile) (st : TarjanState) (v w : ℕ)
    (done : List ℕ) (cur : TarjanState)
    (li : LoopInv p₀ pB st v done cur)
    (hw : hasFunc p₀ w = false) :
    LoopInv p₀ pB st v (done ++ [w]) cur := by
  refine LoopInv_extend p₀ pB st v w done cur li ?_ ?_
  · intro h
    rw [hw] at h
    cases h
  · intro nw mv hst _ _ _
    have := li.inv.orders_real w (li.inv.stack_ordered w hst)
    rw [hw] at this
    cases this

/-- Loop branch: the callee was already discovered and is no longer on
the stack (black); the body does nothing. -/
theorem LoopInv_skip (p₀ pB : Profile) (st : TarjanState) (v w : ℕ)
    (done : List ℕ) (cur : TarjanState)
    (li : LoopInv p₀ pB st v done cur)
    (hwo : Ordered cur w) (hws : w ∉ cur.stack) :
    LoopInv p₀ pB st v (done ++ [w]) cur :=
  LoopInv_extend p₀ pB st v w done cur li (fun _ => hwo)
    (fun _ _ hst _ _ _ => absurd hst hws)

/-- Loop branch: the callee is gray (discovered and on the stack); the
body lowers `lowlinks[v]` by the callee's discovery order. -/
theorem LoopInv_gray (p₀ pB : Profile) (st : TarjanState) (v w : ℕ)
    (done : List ℕ) (cur : TarjanState)
    (li : LoopInv p₀ pB st v done cur)
    (hsc : w ∈ succs p₀ v)
    (hws : w ∈ cur.stack) :
    LoopInv p₀ pB st v (done ++ [w])
      (llMin cur v ((numOf cur w).getD 0)) := by
  have hvo : Ordered cur v := by rw [Ordered, li.v_num]; rfl
  have hvE : hasFunc p₀ v = true := li.inv.orders_real v hvo
  have hwE : hasFunc p₀ w = true :=
    li.inv.orders_real w (li.inv.stack_ordered w hws)
  obtain ⟨nw, hnw⟩ := Option.isSome_iff_exists.mp (li.inv.stack_ordered w hws)
  obtain ⟨mv, hmv⟩ := Option.isSome_iff_exists.mp ((li.inv.ll_dom v).mpr hvo)
  have hb : (numOf cur w).getD 0 = nw := by rw [hnw]; rfl
  have hinv' : InvRun p₀ pB (llMin cur v ((numOf cur w).getD 0)) := by
    refine InvRun_llMin p₀ pB cur v _ mv li.inv li.v_gray hmv
      (Or.inr ⟨w, hws, Relation.ReflTransGen.single ⟨hvE, hsc, hwE⟩, ?_⟩)
    rw [hb, hnw]
  have hllv' : llOf (llMin cur v ((numOf cur w).getD 0)) v =
      some (min mv ((numOf cur w).getD 0)) := llMin_v cur v _ mv hmv
  refine ⟨hinv', li.orders_mono, li.order_mono, li.v_num, li.v_gray,
    li.stack_pres, ?_, li.visited_mono, li.news_num_ge, li.news_reach,
    li.news_explored, ?_, ?_, ?_, ?_, ?_, li.black_mono, li.v_fresh,
    li.v_not_base, li.visited_new⟩
  · intro x hx
    have hxv : x ≠ v := fun hc => li.v_not_base (hc ▸ hx)
    rw [llMin_ne cur v _ x hxv]
    exact li.ll_frozen x hx
  · intro w' hw' hrw'
    rcases List.mem_append.mp hw' with h | h
    · exact li.v_explored w' h hrw'
    · have hww : w' = w := by simpa using h
      rw [hww, Ordered, numOf_llMin, hnw]
      rfl
  · intro x hx hxv hxs n m hn hm
    rw [llMin_ne cur v _ x hxv] at hm
    exact li.news_llstrict x hx hxv hxs n m hn hm
  · intro x hx hxv hxs mv' mx hmv' hmx
    rw [hllv'] at hmv'
    rw [llMin_ne cur v _ x hxv] at hmx
    have h1 := Option.some.inj hmv'
    have h2 := li.news_llbound x hx hxv hxs mv mx hmv hmx
    have h3 := min_le_left mv ((numOf cur w).getD 0)
    omega
  · intro x hx hxv hxs w' hE hws' nw' nx mx hnw' hnx hmx hlt
    rw [llMin_ne cur v _ x hxv] at hmx
    exact li.news_edgell x hx hxv hxs w' hE hws' nw' nx mx hnw' hnx hmx hlt
  · intro w' hw' hst nw' mv' hnw' hmv' hlt
    rw [hllv'] at hmv'
    have h1 := Option.some.inj hmv'
    have h3 := min_le_left mv ((numOf cur w).getD 0)
    have h4 := min_le_right mv ((numOf cur w).getD 0)
    rcases List.mem_append.mp hw' with h | h
    · have h2 := li.v_edgell w' h hst nw' mv hnw' hmv hlt
      omega
    · have hww : w' = w := by simpa using h
      rw [hww, numOf_llMin, hnw] at hnw'
      have h5 := Option.some.inj hnw'
      omega

/-- Loop branch: the callee is undiscovered; the body recurses into it
(whose postcondition is assumed) and then lowers `lowlinks[v]` by the
callee's lowlink. -/
theorem LoopInv_visit (p₀ pB : Profile) (st : TarjanState) (v w : ℕ)
    (done : List ℕ) (cur st2 : TarjanState)
    (li : LoopInv p₀ pB st v done cur)
    (hsc : w ∈ succs p₀ v)
    (hwE : hasFunc p₀ w = true)
    (_hwo : ¬ Ordered cur w)
    (post : VPost p₀ pB cur st2 w) :
    LoopInv p₀ pB st v (done ++ [w])
      (llMin st2 v ((llOf st2 w).getD 0)) := by
  have hvo : Ordered cur v := by rw [Ordered, li.v_num]; rfl
  have hvE : hasFunc p₀ v = true := li.inv.orders_real v hvo
  have hedge : EdgeP p₀ v w := ⟨hvE, hsc, hwE⟩
  obtain ⟨ext1, hext1, hnew1⟩ := li.stack_pres
  obtain ⟨ext2, hext2, hnew2, hwext⟩ := post.stack_pres
  have hOrdCS : ∀ x, Ordered cur x → Ordered st2 x := by
    intro x hx
    obtain ⟨n, hn⟩ := Option.isSome_iff_exists.mp hx
    rw [Ordered, post.orders_mono x n hn]
    rfl
  have hOrdSC : ∀ x, Ordered st x → Ordered cur x := by
    intro x hx
    obtain ⟨n, hn⟩ := Option.isSome_iff_exists.mp hx
    rw [Ordered, li.orders_mono x n hn]
    rfl
  have hnumCS : ∀ x, Ordered cur x → numOf st2 x = numOf cur x := by
    intro x hx
    obtain ⟨n, hn⟩ := Option.isSome_iff_exists.mp hx
    rw [hn, post.orders_mono x n hn]
  have hvst2 : v ∈ st2.stack := by
    rw [hext2]
    exact List.mem_append_left _ li.v_gray
  obtain ⟨mv, hmv⟩ := Option.isSome_iff_exists.mp ((li.inv.ll_dom v).mpr hvo)
  have hmv2 : llOf st2 v = some mv := by
    rw [post.ll_frozen v li.v_gray]
    exact hmv
  have hmvle : mv ≤ st.order := li.inv.ll_le v st.order mv li.v_num hmv
  have hwo2 : Ordered st2 w := by rw [Ordered, post.v_num]; rfl
  obtain ⟨bw, hbw⟩ :=
    Option.isSome_iff_exists.mp ((post.inv.ll_dom w).mpr hwo2)
  have hb : (llOf st2 w).getD 0 = bw := by rw [hbw]; rfl
  have hcurstack : ∀ x, Ordered cur x → x ∈ st2.stack → x ∈ cur.stack := by
    intro x hx hxs
    rw [hext2] at hxs
    rcases List.mem_append.mp hxs with h | h
    · exact h
    · exact absurd hx (hnew2 x h).2
  have hNewSplit : ∀ x, NewO st st2 x → NewO st cur x ∨ NewO cur st2 x := by
    intro x ⟨ho, hno⟩
    by_cases hc : Ordered cur x
    · exact Or.inl ⟨hc, hno⟩
    · exact Or.inr ⟨ho, hc⟩
  have hinv' : InvRun p₀ pB (llMin st2 v ((llOf st2 w).getD 0)) := by
    refine InvRun_llMin p₀ pB st2 v _ mv post.inv hvst2 hmv2 ?_
    by_cases hws : w ∈ st2.stack
    · obtain ⟨u, hu, hr, hnu⟩ := post.inv.gray_witness w hws
      refine Or.inr ⟨u, hu,
        Relation.ReflTransGen.trans (Relation.ReflTransGen.single hedge) hr,
        ?_⟩
      rw [hnu, hbw]
      rfl
    · have := post.v_pop_ll hws
      rw [this] at hbw
      have h1 := Option.some.inj hbw
      left
      rw [hb, ← h1]
      have := li.order_mono
      omega
  have hllv' : llOf (llMin st2 v ((llOf st2 w).getD 0)) v =
      some (min mv ((llOf st2 w).getD 0)) := llMin_v st2 v _ mv hmv2
  refine ⟨hinv', ?_, ?_, ?_, hvst2, ?_, ?_, ?_, ?_, ?_, ?_, ?_, ?_, ?_,
    ?_, ?_, ?_, li.v_fresh, li.v_not_base, ?_⟩
  · intro x n hn
    exact post.orders_mono x n (li.orders_mono x n hn)
  · show st.order < st2.order
    have h1 := li.order_mono
    have h2 := post.order_mono
    omega
  · exact post.orders_mono v st.order li.v_num
  · refine ⟨ext1 ++ ext2, ?_, ?_⟩
    · show st2.stack = st.stack ++ (ext1 ++ ext2)
      rw [hext2, hext1, List.append_assoc]
    · intro x hx
      rcases List.mem_append.mp hx with h | h
      · have := hnew1 x h
        exact ⟨hOrdCS x this.1, this.2⟩
      · have := hnew2 x h
        exact ⟨this.1, fun hc => this.2 (hOrdSC x hc)⟩
  · intro x hx
    have hxv : x ≠ v := fun hc => li.v_not_base (hc ▸ hx)
    rw [llMin_ne st2 v _ x hxv]
    rw [post.ll_frozen x (by rw [hext1]; exact List.mem_append_left _ hx)]
    exact li.ll_frozen x hx
  · intro x hx
    exact post.visited_mono x (li.visited_mono x hx)
  · intro x hx n hn
    rcases hNewSplit x hx with h | h
    · obtain ⟨n', hn'⟩ := Option.isSome_iff_exists.mp h.1
      have := post.orders_mono x n' hn'
      rw [numOf_llMin, this] at hn
      have := Option.some.inj hn
      exact this ▸ li.news_num_ge x h n' hn'
    · have h1 := post.news_num_ge x h n (by rw [numOf_llMin] at hn; exact hn)
      have h2 := li.order_mono
      omega
  · intro x hx
    rcases hNewSplit x hx with h | h
    · exact li.news_reach x h
    · exact Relation.ReflTransGen.trans
        (Relation.ReflTransGen.single hedge) (post.news_reach x h)
  · intro x hx hxv w' hE
    show Ordered st2 w'
    rcases hNewSplit x hx with h | h
    · exact hOrdCS w' (li.news_explored x h hxv w' hE)
    · exact post.news_explored x h w' hE
  · intro w' hw' hrw'
    show Ordered st2 w'
    rcases List.mem_append.mp hw' with h | h
    · exact hOrdCS w' (li.v_explored w' h hrw')
    · have hww : w' = w := by simpa using h
      rw [hww]
      exact hwo2
  · intro x hx hxv hxs n m hn hm
    rw [numOf_llMin] at hn
    rw [llMin_ne st2 v _ x hxv] at hm
    rcases hNewSplit x hx with h | h
    · have hxc : x ∈ cur.stack := hcurstack x h.1 hxs
      rw [hnumCS x h.1] at hn
      rw [post.ll_frozen x hxc] at hm
      exact li.news_llstrict x h hxv hxc n m hn hm
    · exact post.news_llstrict x h hxs n m hn hm
  · intro x hx hxv hxs mv' mx hmv' hmx
    rw [hllv'] at hmv'
    have h0 := Option.some.inj hmv'
    rw [llMin_ne st2 v _ x hxv] at hmx
    have h3 := min_le_left mv ((llOf st2 w).getD 0)
    have h4 := min_le_right mv ((llOf st2 w).getD 0)
    rcases hNewSplit x hx with h | h
    · have hxc : x ∈ cur.stack := hcurstack x h.1 hxs
      rw [post.ll_frozen x hxc] at hmx
      have h2 := li.news_llbound x h hxv hxc mv mx hmv hmx
      omega
    · have h2 := post.news_llbound x h hxs bw mx hbw hmx
      rw [hb] at h0 h4
      omega
  · intro x hx hxv hxs w' hE hws' nw' nx mx hnw' hnx hmx hlt
    have hxs2 : x ∈ st2.stack := hxs
    have hws2 : w' ∈ st2.stack := hws'
    rw [numOf_llMin] at hnw' hnx
    rw [llMin_ne st2 v _ x hxv] at hmx
    rcases hNewSplit x hx with h | h
    · have hxc : x ∈ cur.stack := hcurstack x h.1 hxs2
      rw [hnumCS x h.1] at hnx
      rw [post.ll_frozen x hxc] at hmx
      rw [hext2] at hws2
      rcases List.mem_append.mp hws2 with hw1 | hw2
      · obtain ⟨nw0, hnw0⟩ :=
          Option.isSome_iff_exists.mp (li.inv.stack_ordered w' hw1)
        have hmono := post.orders_mono w' nw0 hnw0
        rw [hmono] at hnw'
        have heq := Option.some.inj hnw'
        have h2 := li.news_edgell x h hxv hxc w' hE hw1 nw0 nx mx hnw0 hnx
          hmx (by omega)
        omega
      · have h1 := post.news_num_ge w' (hnew2 w' hw2) nw' hnw'
        have h2 := li.inv.orders_lt x nx hnx
        omega
    · exact post.news_edgell x h hxs2 w' hE hws2 nw' nx mx hnw' hnx hmx hlt
  · intro w' hw' hst' nw' mv' hnw' hmv' hlt
    have hst2 : w' ∈ st2.stack := hst'
    rw [hllv'] at hmv'
    have h0 := Option.some.inj hmv'
    have h3 := min_le_left mv ((llOf st2 w).getD 0)
    rw [numOf_llMin] at hnw'
    rcases List.mem_append.mp hw' with h | h
    · rw [hext2] at hst2
      rcases List.mem_append.mp hst2 with hw1 | hw2
      · obtain ⟨nw0, hnw0⟩ :=
          Option.isSome_iff_exists.mp (li.inv.stack_ordered w' hw1)
        have hmono := post.orders_mono w' nw0 hnw0
        rw [hmono] at hnw'
        have heq := Option.some.inj hnw'
        have h2 := li.v_edgell w' h hw1 nw0 mv hnw0 hmv (by omega)
        omega
      · have h1 := post.news_num_ge w' (hnew2 w' hw2) nw' hnw'
        have h2 := li.order_mono
        omega
    · have hww : w' = w := by simpa using h
      rw [hww, post.v_num] at hnw'
      have h1 := Option.some.inj hnw'
      have h2 := li.order_mono
      omega
  · intro x hx
    exact post.black_mono x (li.black_mono x hx)
  · intro x hx
    rcases post.visited_new x hx with h | h
    · rcases li.visited_new x h with h2 | h2
      · exact Or.inl h2
      · exact Or.inr (hOrdCS x h2)
    · exact Or.inr h

/-!
### Dispatch equations for the loop body
-/

theorem tstep_none (fuel fid : ℕ) (st : TarjanState) (w : ℕ)
    (h : lookupFunc st.prof w = none) : tstep fuel fid st w = st := by
  unfold tstep
  rw [h]

theorem tstep_new (fuel fid : ℕ) (st : TarjanState) (w : ℕ) (f : Func)
    (h : lookupFunc st.prof w = some f)
    (ho : (alookup st.orders w).isNone = true) :
    tstep fuel fid st w =
      llMin (tarjanVisit fuel st w) fid
        ((llOf (tarjanVisit fuel st w) w).getD 0) := by
  unfold tstep
  rw [h]
  simp only [ho, if_true]
  rfl

theorem tstep_gray (fuel fid : ℕ) (st : TarjanState) (w : ℕ) (f : Func)
    (h : lookupFunc st.prof w = some f)
    (ho : (alookup st.orders w).isNone = false)
    (hs : w ∈ st.stack) :
    tstep fuel fid st w = llMin st fid ((numOf st w).getD 0) := by
  unfold tstep
  rw [h]
  simp only [ho, Bool.false_eq_true, if_false, hs, if_true]
  rfl

theorem tstep_black (fuel fid : ℕ) (st : TarjanState) (w : ℕ) (f : Func)
    (h : lookupFunc st.prof w = some f)
    (ho : (alookup st.orders w).isNone = false)
    (hs : w ∉ st.stack) :
    tstep fuel fid st w = st := by
  unfold tstep
  rw [h]
  simp only [ho, Bool.false_eq_true, if_false, hs]

/-- Running the call loop over any batch of successors preserves the
loop invariant and the fuel bound. -/
theorem loop_spec (p₀ pB : Profile) (fuel : ℕ)
    (hIH : ∀ (st' : TarjanState) (w' : ℕ), InvRun p₀ pB st' →
      ¬ Ordered st' w' → hasFunc p₀ w' = true →
      unorderedCount p₀ st' ≤ fuel →
      VPost p₀ pB st' (tarjanVisit fuel st' w') w')
    (st : TarjanState) (v : ℕ) :
    ∀ (ws done : List ℕ) (cur : TarjanState),
      LoopInv p₀ pB st v done cur →
      unorderedCount p₀ cur ≤ fuel →
      (∀ w ∈ ws, w ∈ succs p₀ v) →
      LoopInv p₀ pB st v (done ++ ws) (ws.foldl (tstep fuel v) cur) ∧
      unorderedCount p₀ (ws.foldl (tstep fuel v) cur) ≤ fuel := by
  intro ws
  induction ws with
  | nil =>
    intro done cur hli hfc _
    constructor
    · simpa using hli
    · simpa using hfc
  | cons w rest ih =>
    intro done cur hli hfc hmem
    have hw : w ∈ succs p₀ v := hmem w (List.mem_cons_self w rest)
    have hstep : LoopInv p₀ pB st v (done ++ [w]) (tstep fuel v cur w) ∧
        unorderedCount p₀ (tstep fuel v cur w) ≤ fuel := by
      cases hres : lookupFunc cur.prof w with
      | none =>
        rw [tstep_none fuel v cur w hres]
        have hwE : hasFunc p₀ w = false := by
          rw [← hasFunc_congr hli.inv.shape_eq, hasFunc_eq_isSome, hres]
          rfl
        exact ⟨LoopInv_none p₀ pB st v w done cur hli hwE, hfc⟩
      | some f =>
        have hwE : hasFunc p₀ w = true := by
          rw [← hasFunc_congr hli.inv.shape_eq, hasFunc_eq_isSome, hres]
          rfl
        cases hord : (alookup cur.orders w).isNone with
        | true =>
          have hwo : ¬ Ordered cur w := by
            intro hc
            have hc2 : (alookup cur.orders w).isSome = true := hc
            rw [Option.isNone_iff_eq_none] at hord
            rw [hord] at hc2
            cases hc2
          rw [tstep_new fuel v cur w f hres hord]
          have hpost := hIH cur w hli.inv hwo hwE hfc
          refine ⟨LoopInv_visit p₀ pB st v w done cur _ hli hw hwE hwo
            hpost, ?_⟩
          show unorderedCount p₀ (tarjanVisit fuel cur w) ≤ fuel
          exact le_trans
            (unorderedCount_mono p₀ cur _ hpost.orders_mono) hfc
        | false =>
          have hwo : Ordered cur w := by
            show (alookup cur.orders w).isSome = true
            cases hcase : alookup cur.orders w
            · rw [hcase] at hord
              simp at hord
            · rfl
          by_cases hstk : w ∈ cur.stack
          · rw [tstep_gray fuel v cur w f hres hord hstk]
            exact ⟨LoopInv_gray p₀ pB st v w done cur hli hw hstk, hfc⟩
          · rw [tstep_black fuel v cur w f hres hord hstk]
            exact ⟨LoopInv_skip p₀ pB st v w done cur hli hwo hstk, hfc⟩
    have hrec := ih (done ++ [w]) (tstep fuel v cur w) hstep.1 hstep.2
      (fun x hx => hmem x (List.mem_cons_of_mem w hx))
    rw [List.foldl_cons]
    constructor
    · have := hrec.1
      rw [List.append_assoc] at this
      simpa using this
    · exact hrec.2

/-!
### The popped segment is exactly the strongly connected component
-/

/-- At a pop (`lowlink == order` after the call loop), the stack segment
pushed during this visit is exactly the strongly connected component of
the visited node. -/
theorem pop_scc (p₀ pB : Profile) (st : TarjanState) (v : ℕ)
    (stL : TarjanState) (hinvst : InvRun p₀ pB st)
    (li : LoopInv p₀ pB st v (succs p₀ v) stL)
    (mv : ℕ) (hmv : llOf stL v = some mv) (hroot : mv = st.order)
    (ext : List ℕ) (hext : stL.stack = st.stack ++ ext)
    (hnewext : ∀ x ∈ ext, NewO st stL x) :
    ∀ y, y ∈ ext ↔ InSCC p₀ v y := by
  have hvext : v ∈ ext := by
    have hvm := li.v_gray
    rw [hext] at hvm
    rcases List.mem_append.mp hvm with h | h
    · exact absurd h li.v_not_base
    · exact h
  have hgele : ∀ x, x ∈ stL.stack → ∀ nx, numOf stL x = some nx →
      st.order ≤ nx → x = v ∨
      ∃ mx, llOf stL x = some mx ∧ mx < nx ∧ st.order ≤ mx := by
    intro x hx nx hnx hge
    rw [hext] at hx
    rcases List.mem_append.mp hx with h | h
    · obtain ⟨n0, hn0⟩ :=
        Option.isSome_iff_exists.mp (hinvst.stack_ordered x h)
      have h1 := hinvst.orders_lt x n0 hn0
      have h2 := li.orders_mono x n0 hn0
      rw [h2] at hnx
      have := Option.some.inj hnx
      omega
    · by_cases hxv : x = v
      · exact Or.inl hxv
      · have hnew := hnewext x h
        have hxstack : x ∈ stL.stack := by
          rw [hext]
          exact List.mem_append_right _ h
        obtain ⟨mx, hmx⟩ :=
          Option.isSome_iff_exists.mp ((li.inv.ll_dom x).mpr hnew.1)
        have hstrict := li.news_llstrict x hnew hxv hxstack nx mx hnx hmx
        have hbound := li.news_llbound x hnew hxv hxstack mv mx hmv hmx
        exact Or.inr ⟨mx, hmx, hstrict, by omega⟩
  have hreachback : ∀ y ∈ ext, ReachP p₀ y v := by
    intro y hy
    obtain ⟨ny, hny⟩ := Option.isSome_iff_exists.mp (hnewext y hy).1
    have hge := li.news_num_ge y (hnewext y hy) ny hny
    have hystack : y ∈ stL.stack := by
      rw [hext]
      exact List.mem_append_right _ hy
    exact segment_to_root p₀ pB stL v st.order li.inv li.v_num hgele
      ny y hystack hny hge
  intro y
  constructor
  · intro hy
    exact ⟨li.news_reach y (hnewext y hy), hreachback y hy⟩
  · intro hin
    obtain ⟨hvy, hyv⟩ := hin
    by_contra hyext
    obtain ⟨x, z, hxe, hze, hxz, hvx, hzy⟩ :=
      reach_first_exit (P := fun a => a ∈ ext) hvy hvext hyext
    have hxnew := hnewext x hxe
    have hxstack : x ∈ stL.stack := by
      rw [hext]
      exact List.mem_append_right _ hxe
    have hzo : Ordered stL z := by
      by_cases hxv : x = v
      · refine li.v_explored z ?_ hxz.2.2
        rw [hxv] at hxz
        exact hxz.2.1
      · exact li.news_explored x hxnew hxv z hxz
    by_cases hzs : z ∈ stL.stack
    · have hzst : z ∈ st.stack := by
        rw [hext] at hzs
        rcases List.mem_append.mp hzs with h | h
        · exact h
        · exact absurd h hze
      obtain ⟨nz, hnz0⟩ :=
        Option.isSome_iff_exists.mp (hinvst.stack_ordered z hzst)
      have hnzlt := hinvst.orders_lt z nz hnz0
      have hnz := li.orders_mono z nz hnz0
      by_cases hxv : x = v
      · have hsuc : z ∈ succs p₀ v := by
          rw [hxv] at hxz
          exact hxz.2.1
        have hzs2 : z ∈ stL.stack := by
          rw [hext]
          exact List.mem_append_left _ hzst
        have := li.v_edgell z hsuc hzs2 nz mv hnz hmv (by omega)
        omega
      · obtain ⟨nx, hnx⟩ := Option.isSome_iff_exists.mp hxnew.1
        have hnxge := li.news_num_ge x hxnew nx hnx
        obtain ⟨mx, hmx⟩ :=
          Option.isSome_iff_exists.mp ((li.inv.ll_dom x).mpr hxnew.1)
        have h1 := li.news_edgell x hxnew hxv hxstack z hxz hzs nz nx mx
          hnz hnx hmx (by omega)
        have h2 := li.news_llbound x hxnew hxv hxstack mv mx hmv hmx
        omega
    · have hzb : Black stL z := ⟨hzo, hzs⟩
      have hzscc : InSCC p₀ z v :=
        ⟨Relation.ReflTransGen.trans hzy hyv,
         Relation.ReflTransGen.trans hvx (Relation.ReflTransGen.single hxz)⟩
      have := li.inv.black_closed z hzb v hzscc
      exact this.2 li.v_gray

theorem exists_ne_of_one_lt_length (l : List ℕ) (hnd : l.Nodup)
    (hlen : 1 < l.length) (x : ℕ) : ∃ a ∈ l, a ≠ x := by
  cases l with
  | nil => simp at hlen
  | cons a t =>
    cases t with
    | nil => simp at hlen
    | cons b t2 =>
      by_cases hax : a = x
      · refine ⟨b, List.mem_cons_of_mem a (List.mem_cons_self b t2),
          fun hbx => ?_⟩
        have h1 := (List.nodup_cons.mp hnd).1
        exact h1 (by rw [hax, hbx]; exact List.mem_cons_self x t2)
      · exact ⟨a, List.mem_cons_self a _, hax⟩

theorem mem_ids_of_hasFunc (p : Profile) (v : ℕ) (h : hasFunc p v = true) :
    v ∈ p.functions.map Func.id := by
  rw [hasFunc_eq_isSome] at h
  obtain ⟨f, hf⟩ := Option.isSome_iff_exists.mp h
  have hfv : f.id = v := by simpa using List.find?_some hf
  exact hfv ▸ List.mem_map_of_mem Func.id (List.mem_of_find?_eq_some hf)

/-- After the call loop, when the lowlink of the visited node is still
below its discovery order, nothing is popped and the loop invariant
directly yields the visit postcondition. -/
theorem VPost_nopop (p₀ pB : Profile) (st : TarjanState) (v : ℕ)
    (stL : TarjanState) (_hinvst : InvRun p₀ pB st)
    (li : LoopInv p₀ pB st v (succs p₀ v) stL)
    (mv : ℕ) (hmv : llOf stL v = some mv) (hne : mv ≠ st.order) :
    VPost p₀ pB st stL v := by
  obtain ⟨ext, hext, hnewext⟩ := li.stack_pres
  have hvext : v ∈ ext := by
    have hvm := li.v_gray
    rw [hext] at hvm
    rcases List.mem_append.mp hvm with h | h
    · exact absurd h li.v_not_base
    · exact h
  refine ⟨li.inv, li.orders_mono, le_of_lt li.order_mono, li.v_num,
    ⟨ext, hext, hnewext, Or.inr hvext⟩, ?_, li.ll_frozen, li.visited_mono,
    li.news_num_ge, li.news_reach, ?_, ?_, ?_, ?_, li.black_mono,
    li.visited_new⟩
  · intro h
    exact absurd li.v_gray h
  · intro x hx w hE
    by_cases hxv : x = v
    · refine li.v_explored w ?_ hE.2.2
      rw [hxv] at hE
      exact hE.2.1
    · exact li.news_explored x hx hxv w hE
  · intro x hx hxs n m hn hm
    by_cases hxv : x = v
    · rw [hxv] at hn hm
      rw [li.v_num] at hn
      rw [hmv] at hm
      have h1 := Option.some.inj hn
      have h2 := Option.some.inj hm
      have h3 := li.inv.ll_le v st.order mv li.v_num hmv
      omega
    · exact li.news_llstrict x hx hxv hxs n m hn hm
  · intro x hx hxs mv' mx hmv' hmx
    rw [hmv] at hmv'
    have h1 := Option.some.inj hmv'
    by_cases hxv : x = v
    · rw [hxv, hmv] at hmx
      have h2 := Option.some.inj hmx
      omega
    · have h2 := li.news_llbound x hx hxv hxs mv mx hmv hmx
      omega
  · intro x hx hxs w hE hws nw nx mx hnw hnx hmx hlt
    by_cases hxv : x = v
    · rw [hxv] at hnx hmx hE
      rw [li.v_num] at hnx
      rw [hmv] at hmx
      have h1 := Option.some.inj hnx
      have h2 := Option.some.inj hmx
      have h3 := li.v_edgell w hE.2.1 hws nw mv hnw hmv (by omega)
      omega
    · exact li.news_edgell x hx hxv hxs w hE hws nw nx mx hnw hnx hmx hlt

/-!
### The pop: state facts
-/

/-- The state after a pop: stack truncated to the entry depth, profile
replaced by `P` (unchanged for a trivial segment, extended by a fresh
Cycle otherwise). -/
def popSt (pos : ℕ) (stL : TarjanState) (P : Profile) : TarjanState :=
  { stL with stack := stL.stack.take pos, prof := P }

theorem cycleHeap_modifyCycleAt_ne (p : Profile) (c c' : ℕ)
    (g : Cycle → Cycle) (h : c' ≠ c) :
    (modifyCycleAt p c g).cycleHeap[c']? = p.cycleHeap[c']? := by
  unfold modifyCycleAt
  cases hcy : p.cycleHeap[c]? with
  | none => rfl
  | some cy =>
    simp only
    rw [List.getElem?_set_ne (fun hc => h hc.symm)]

/-- Entries of the cycle heap strictly below the old length are
untouched by a pop's member-insertion fold. -/
theorem cycleHeap_pushSeg_keep (p : Profile) (ms : List ℕ) (c : ℕ)
    (hc : c < p.cycleHeap.length) :
    (pushSeg p ms).cycleHeap[c]? = p.cycleHeap[c]? := by
  have main : ∀ (l : List ℕ) (q : Profile),
      p.cycleHeap.length < q.cycleHeap.length ∧
        q.cycleHeap[c]? = p.cycleHeap[c]? →
      p.cycleHeap.length <
        (l.foldl (fun q m =>
          addFunction (q.functions.length + 1) q p.cycleHeap.length m)
          q).cycleHeap.length ∧
      (l.foldl (fun q m =>
          addFunction (q.functions.length + 1) q p.cycleHeap.length m)
          q).cycleHeap[c]? = p.cycleHeap[c]? := by
    intro l
    induction l with
    | nil => intro q h; exact h
    | cons m rest ih =>
      intro q h
      rw [List.foldl_cons]
      apply ih
      rw [addFunction_eq _ _ _ _ h.1]
      constructor
      · rw [cycleHeap_setFuncCycle_length, cycleHeap_addCycleMember_length]
        exact h.1
      · have hsf : (setFuncCycle (addCycleMember q p.cycleHeap.length m) m
            p.cycleHeap.length).cycleHeap =
            (addCycleMember q p.cycleHeap.length m).cycleHeap := rfl
        rw [hsf]
        show (modifyCycleAt q p.cycleHeap.length _).cycleHeap[c]? = _
        rw [cycleHeap_modifyCycleAt_ne q p.cycleHeap.length c _ (by omega)]
        exact h.2
  refine (main ms _ ⟨by simp, ?_⟩).2
  show (p.cycleHeap ++ [Cycle.mk [] []])[c]? = p.cycleHeap[c]?
  rw [List.getElem?_append]
  rw [if_pos hc]

/-- The run invariant survives a pop, given the profile facts for the
new profile `P`. -/
theorem InvRun_popP (p₀ pB : Profile) (st : TarjanState) (v : ℕ)
    (stL : TarjanState) (P : Profile) (hinvst : InvRun p₀ pB st)
    (li : LoopInv p₀ pB st v (succs p₀ v) stL)
    (mv : ℕ) (hmv : llOf stL v = some mv) (hroot : mv = st.order)
    (ext : List ℕ) (hext : stL.stack = st.stack ++ ext)
    (hnewext : ∀ x ∈ ext, NewO st stL x)
    (hshape : shape P = shape p₀)
    (hpd : ∀ x, Black (popSt st.stack.length stL P) x →
      NontrivialSCC p₀ x →
      ∃ c, funcCycle P x = some c ∧ MembersMatch P c (sccSet p₀ x))
    (hpk : ∀ x, ¬ Black (popSt st.stack.length stL P) x →
      funcCycle P x = funcCycle pB x)
    (hpt : ∀ x, ¬ NontrivialSCC p₀ x → funcCycle P x = funcCycle pB x)
    (hhk : ∀ c, c < pB.cycleHeap.length →
      P.cycleHeap[c]? = pB.cycleHeap[c]?)
    (hhl : pB.cycleHeap.length ≤ P.cycleHeap.length) :
    InvRun p₀ pB (popSt st.stack.length stL P) := by
  have htake : stL.stack.take st.stack.length = st.stack := by
    rw [hext]
    exact List.take_left st.stack ext
  have hscc := pop_scc p₀ pB st v stL hinvst li mv hmv hroot ext hext hnewext
  have hdisj : ∀ x ∈ ext, x ∉ st.stack := by
    have hnd := li.inv.stack_nodup
    rw [hext] at hnd
    have hd := List.disjoint_of_nodup_append hnd
    exact fun x hx hc => hd hc hx
  refine ⟨hshape, li.inv.orders_real, li.inv.orders_lt, li.inv.orders_inj,
    li.inv.ll_dom, li.inv.ll_le, ?_, ?_, ?_, ?_, ?_, li.inv.visited_sup,
    hpd, hpk, hpt, hhk, hhl⟩
  · intro x hx
    have hx2 : x ∈ stL.stack.take st.stack.length := hx
    rw [htake] at hx2
    have hmem : x ∈ stL.stack := by
      rw [hext]
      exact List.mem_append_left _ hx2
    exact li.inv.stack_ordered x hmem
  · show (stL.stack.take st.stack.length).Nodup
    rw [htake]
    exact hinvst.stack_nodup
  · show (stL.stack.take st.stack.length).Pairwise _
    rw [htake]
    refine hinvst.stack_sorted.imp_of_mem ?_
    intro a b ha hb hab na nb hna hnb
    obtain ⟨n0, hn0⟩ :=
      Option.isSome_iff_exists.mp (hinvst.stack_ordered a ha)
    obtain ⟨n1, hn1⟩ :=
      Option.isSome_iff_exists.mp (hinvst.stack_ordered b hb)
    have h0 := li.orders_mono a n0 hn0
    have h1 := li.orders_mono b n1 hn1
    have hna2 : numOf stL a = some na := hna
    have hnb2 : numOf stL b = some nb := hnb
    rw [h0] at hna2
    rw [h1] at hnb2
    have e0 := Option.some.inj hna2
    have e1 := Option.some.inj hnb2
    have := hab n0 n1 hn0 hn1
    omega
  · intro x hx
    have hx2 : x ∈ stL.stack.take st.stack.length := hx
    rw [htake] at hx2
    obtain ⟨u, hu, hr, hnu⟩ := hinvst.gray_witness x hx2
    obtain ⟨nu, hnu0⟩ :=
      Option.isSome_iff_exists.mp (hinvst.stack_ordered u hu)
    refine ⟨u, ?_, hr, ?_⟩
    · show u ∈ stL.stack.take st.stack.length
      rw [htake]
      exact hu
    · show numOf stL u = llOf stL x
      rw [li.ll_frozen x hx2, ← hnu, li.orders_mono u nu hnu0, hnu0]
  · intro x hb w hw
    have hs2 : x ∉ st.stack := by
      have h := hb.2
      intro hc
      apply h
      show x ∈ stL.stack.take st.stack.length
      rw [htake]
      exact hc
    have hxo : Ordered stL x := hb.1
    by_cases hxL : x ∈ stL.stack
    · have hxe : x ∈ ext := by
        rw [hext] at hxL
        rcases List.mem_append.mp hxL with h | h
        · exact absurd h hs2
        · exact h
      have hvx : InSCC p₀ v x := (hscc x).mp hxe
      have hvw : InSCC p₀ v w := hvx.trans hw
      have hwe : w ∈ ext := (hscc w).mpr hvw
      refine ⟨(hnewext w hwe).1, ?_⟩
      show w ∉ stL.stack.take st.stack.length
      rw [htake]
      exact hdisj w hwe
    · have hbL : Black stL x := ⟨hxo, hxL⟩
      have hres := li.inv.black_closed x hbL w hw
      refine ⟨hres.1, ?_⟩
      show w ∉ stL.stack.take st.stack.length
      rw [htake]
      intro hc
      exact hres.2 (by rw [hext]; exact List.mem_append_left _ hc)

/-- Trivial pop (single-member segment): the profile is unchanged and
the popped node's component is a singleton. -/
theorem InvRun_pop_trivial (p₀ pB : Profile) (st : TarjanState) (v : ℕ)
    (stL : TarjanState) (hinvst : InvRun p₀ pB st)
    (li : LoopInv p₀ pB st v (succs p₀ v) stL)
    (mv : ℕ) (hmv : llOf stL v = some mv) (hroot : mv = st.order)
    (ext : List ℕ) (hext : stL.stack = st.stack ++ ext)
    (hnewext : ∀ x ∈ ext, NewO st stL x)
    (hlen : ¬ 1 < ext.length) :
    InvRun p₀ pB (popSt st.stack.length stL stL.prof) := by
  have htake : stL.stack.take st.stack.length = st.stack := by
    rw [hext]
    exact List.take_left st.stack ext
  have hscc := pop_scc p₀ pB st v stL hinvst li mv hmv hroot ext hext hnewext
  have hvext : v ∈ ext := by
    have hvm := li.v_gray
    rw [hext] at hvm
    rcases List.mem_append.mp hvm with h | h
    · exact absurd h li.v_not_base
    · exact h
  have hextv : ext = [v] := by
    have hne : ext ≠ [] := by
      intro hc
      rw [hc] at hvext
      exact List.not_mem_nil v hvext
    have hlen1 : ext.length = 1 := by
      have := List.length_pos.mpr hne
      omega
    obtain ⟨a, ha⟩ := List.length_eq_one.mp hlen1
    rw [ha] at hvext ⊢
    have : v = a := by simpa using hvext
    rw [this]
  refine InvRun_popP p₀ pB st v stL stL.prof hinvst li mv hmv hroot ext
    hext hnewext li.inv.shape_eq ?_ ?_ li.inv.prof_trivial
    li.inv.heap_keep li.inv.heap_len_mono
  · intro x hb hnt
    by_cases hxL : x ∈ stL.stack
    · exfalso
      have hs2 : x ∉ st.stack := by
        have h := hb.2
        intro hc
        apply h
        show x ∈ stL.stack.take st.stack.length
        rw [htake]
        exact hc
      have hxe : x ∈ ext := by
        rw [hext] at hxL
        rcases List.mem_append.mp hxL with h | h
        · exact absurd h hs2
        · exact h
      have hxv : x = v := by
        rw [hextv] at hxe
        simpa using hxe
      obtain ⟨w, hwne, hwscc⟩ := hnt
      have hw : w ∈ ext := (hscc w).mpr (by rw [← hxv]; exact hwscc)
      have hwv : w = v := by
        rw [hextv] at hw
        simpa using hw
      exact hwne (by rw [hwv, hxv])
    · exact li.inv.prof_done x ⟨hb.1, hxL⟩ hnt
  · intro x hnb
    apply li.inv.prof_keep
    intro hbL
    apply hnb
    refine ⟨hbL.1, ?_⟩
    show x ∉ stL.stack.take st.stack.length
    rw [htake]
    intro hc
    exact hbL.2 (by rw [hext]; exact List.mem_append_left _ hc)

/-- Proper pop (segment of size at least 2): a fresh Cycle is created
holding exactly the component's members, which point to it; everything
else keeps its cycle assignment. -/
theorem InvRun_pop_cycle (p₀ pB : Profile) (st : TarjanState) (v : ℕ)
    (stL : TarjanState) (hinvst : InvRun p₀ pB st)
    (li : LoopInv p₀ pB st v (succs p₀ v) stL)
    (mv : ℕ) (hmv : llOf stL v = some mv) (hroot : mv = st.order)
    (ext : List ℕ) (hext : stL.stack = st.stack ++ ext)
    (hnewext : ∀ x ∈ ext, NewO st stL x)
    (hlen : 1 < ext.length) :
    InvRun p₀ pB (popSt st.stack.length stL (pushSeg stL.prof ext)) := by
  have htake : stL.stack.take st.stack.length = st.stack := by
    rw [hext]
    exact List.take_left st.stack ext
  have hscc := pop_scc p₀ pB st v stL hinvst li mv hmv hroot ext hext hnewext
  have hnodup : ext.Nodup := by
    have hnd := li.inv.stack_nodup
    rw [hext] at hnd
    exact hnd.of_append_right
  have hdisj : ∀ x ∈ ext, x ∉ st.stack := by
    have hnd := li.inv.stack_nodup
    rw [hext] at hnd
    have hd := List.disjoint_of_nodup_append hnd
    exact fun x hx hc => hd hc hx
  have hrealext : ∀ m ∈ ext, hasFunc stL.prof m = true := by
    intro m hm
    rw [hasFunc_congr li.inv.shape_eq]
    exact li.inv.orders_real m (hnewext m hm).1
  have seg := pushSeg_spec stL.prof ext hnodup hrealext
  have hblack : ∀ x,
      Black (popSt st.stack.length stL (pushSeg stL.prof ext)) x ↔
      (Ordered stL x ∧ x ∉ st.stack) := by
    intro x
    constructor
    · intro hb
      refine ⟨hb.1, ?_⟩
      intro hc
      apply hb.2
      show x ∈ stL.stack.take st.stack.length
      rw [htake]
      exact hc
    · intro h
      refine ⟨h.1, ?_⟩
      show x ∉ stL.stack.take st.stack.length
      rw [htake]
      exact h.2
  refine InvRun_popP p₀ pB st v stL _ hinvst li mv hmv hroot ext hext
    hnewext (seg.shape_eq.trans li.inv.shape_eq) ?_ ?_ ?_ ?_ ?_
  · intro x hb hnt
    rcases (hblack x).mp hb with ⟨hxo, hs2⟩
    by_cases hxL : x ∈ stL.stack
    · have hxe : x ∈ ext := by
        rw [hext] at hxL
        rcases List.mem_append.mp hxL with h | h
        · exact absurd h hs2
        · exact h
      have hvx : InSCC p₀ v x := (hscc x).mp hxe
      have hset := sccSet_congr hvx
      refine ⟨stL.prof.cycleHeap.length, seg.cyc_done x hxe, ?_⟩
      intro w
      rw [seg.members_cid, hscc w]
      rw [show (sccSet p₀ x : Set ℕ) = sccSet p₀ v from hset]
      exact Iff.rfl
    · obtain ⟨c, hc, hm⟩ := li.inv.prof_done x ⟨hxo, hxL⟩ hnt
      have hcv : c < stL.prof.cycleHeap.length := by
        apply cycleMembers_ne_nil_valid
        intro hnil
        have hx := (hm x).mpr (InSCC.refl p₀ x)
        rw [hnil] at hx
        exact List.not_mem_nil x hx
      have hcid : c ≠ stL.prof.cycleHeap.length := by omega
      have hxext : x ∉ ext := fun hc2 =>
        hxL (by rw [hext]; exact List.mem_append_right _ hc2)
      refine ⟨c, ?_, ?_⟩
      · rw [seg.cyc_rest x hxext]
        exact hc
      · intro w
        rw [seg.members_ne c hcid]
        exact hm w
  · intro x hnb
    have hn2 : ¬ (Ordered stL x ∧ x ∉ st.stack) := fun hc =>
      hnb ((hblack x).mpr hc)
    have hxext : x ∉ ext := by
      intro hc
      exact hn2 ⟨(hnewext x hc).1, hdisj x hc⟩
    rw [seg.cyc_rest x hxext]
    apply li.inv.prof_keep
    intro hbL
    refine hn2 ⟨hbL.1, ?_⟩
    intro hc
    exact hbL.2 (by rw [hext]; exact List.mem_append_left _ hc)
  · intro x hnt
    have hxext : x ∉ ext := by
      intro hc
      apply hnt
      have hvx := (hscc x).mp hc
      obtain ⟨a, ha, hane⟩ := exists_ne_of_one_lt_length ext hnodup hlen x
      exact ⟨a, hane, hvx.symm.trans ((hscc a).mp ha)⟩
    rw [seg.cyc_rest x hxext]
    exact li.inv.prof_trivial x hnt
  · intro c hc
    have hc2 : c < stL.prof.cycleHeap.length :=
      lt_of_lt_of_le hc li.inv.heap_len_mono
    rw [cycleHeap_pushSeg_keep stL.prof ext c hc2]
    exact li.inv.heap_keep c hc
  · show pB.cycleHeap.length ≤ (pushSeg stL.prof ext).cycleHeap.length
    rw [seg.heap_len]
    have := li.inv.heap_len_mono
    omega

/-- The visit postcondition after a pop, for either pop variant. -/
theorem VPost_popP (p₀ pB : Profile) (st : TarjanState) (v : ℕ)
    (stL : TarjanState) (P : Profile) (hinvst : InvRun p₀ pB st)
    (li : LoopInv p₀ pB st v (succs p₀ v) stL)
    (mv : ℕ) (hmv : llOf stL v = some mv) (hroot : mv = st.order)
    (ext : List ℕ) (hext : stL.stack = st.stack ++ ext)
    (hinv' : InvRun p₀ pB (popSt st.stack.length stL P)) :
    VPost p₀ pB st (popSt st.stack.length stL P) v := by
  have htake : stL.stack.take st.stack.length = st.stack := by
    rw [hext]
    exact List.take_left st.stack ext
  refine ⟨hinv', li.orders_mono, le_of_lt li.order_mono, li.v_num, ?_, ?_,
    li.ll_frozen, li.visited_mono, li.news_num_ge, li.news_reach, ?_, ?_,
    ?_, ?_, ?_, li.visited_new⟩
  · refine ⟨[], ?_, fun x hx => absurd hx (List.not_mem_nil x), Or.inl rfl⟩
    show stL.stack.take st.stack.length = st.stack ++ []
    rw [htake]
    simp
  · intro _
    show llOf stL v = some st.order
    rw [hmv, hroot]
  · intro x hx w hE
    show Ordered stL w
    by_cases hxv : x = v
    · refine li.v_explored w ?_ hE.2.2
      rw [hxv] at hE
      exact hE.2.1
    · exact li.news_explored x hx hxv w hE
  · intro x hx hxs
    exfalso
    have hxs2 : x ∈ stL.stack.take st.stack.length := hxs
    rw [htake] at hxs2
    exact hx.2 (hinvst.stack_ordered x hxs2)
  · intro x hx hxs
    exfalso
    have hxs2 : x ∈ stL.stack.take st.stack.length := hxs
    rw [htake] at hxs2
    exact hx.2 (hinvst.stack_ordered x hxs2)
  · intro x hx hxs
    exfalso
    have hxs2 : x ∈ stL.stack.take st.stack.length := hxs
    rw [htake] at hxs2
    exact hx.2 (hinvst.stack_ordered x hxs2)
  · intro x hb
    obtain ⟨n, hn⟩ := Option.isSome_iff_exists.mp hb.1
    refine ⟨?_, ?_⟩
    · show (numOf stL x).isSome
      rw [li.orders_mono x n hn]
      rfl
    · show x ∉ stL.stack.take st.stack.length
      rw [htake]
      exact hb.2

/-- Full functional specification of one `_tarjan` visit: on enough
fuel, a visit of an undiscovered function satisfies `VPost`. -/
theorem tarjanVisit_spec (p₀ pB : Profile) :
    ∀ (fuel : ℕ) (st : TarjanState) (v : ℕ),
      InvRun p₀ pB st → ¬ Ordered st v → hasFunc p₀ v = true →
      unorderedCount p₀ st ≤ fuel →
      VPost p₀ pB st (tarjanVisit fuel st v) v := by
  intro fuel
  induction fuel with
  | zero =>
    intro st v hinv hv hreal hfc
    exfalso
    have hvmem := mem_ids_of_hasFunc p₀ v hreal
    have hP : (numOf st v).isNone = true := by
      rw [Option.isNone_iff_eq_none]
      exact Option.not_isSome_iff_eq_none.mp hv
    have hmem : v ∈ (p₀.functions.map Func.id).filter
        (fun k => (numOf st k).isNone) :=
      List.mem_filter.mpr ⟨hvmem, by simpa using hP⟩
    have := List.length_pos.mpr (List.ne_nil_of_mem hmem)
    unfold unorderedCount at hfc
    omega
  | succ n ih =>
    intro st v hinv hv hreal hfc
    rw [tarjanVisit_eq]
    rw [succs_congr hinv.shape_eq]
    have hli0 := LoopInv_init p₀ pB st v hinv hv hreal
    have hmono1 : ∀ x k, numOf st x = some k →
        numOf (pushV st v) x = some k := by
      intro x k hk
      have hxv : x ≠ v := by
        intro hc
        apply hv
        rw [hc] at hk
        rw [Ordered, hk]
        rfl
      rw [numOf_pushV_ne st v x hxv]
      exact hk
    have hOrd1 : Ordered (pushV st v) v := by
      rw [Ordered, numOf_pushV_self]
      rfl
    have hfc1 : unorderedCount p₀ (pushV st v) ≤ n := by
      have := unorderedCount_lt p₀ st (pushV st v) v hmono1 hv hOrd1 hreal
      omega
    obtain ⟨hliL, hfcL⟩ := loop_spec p₀ pB n ih st v (succs p₀ v) []
      (pushV st v) hli0 hfc1 (fun w hw => hw)
    generalize hgen : (succs p₀ v).foldl (tstep n v) (pushV st v) = stL
      at hliL ⊢
    have hliL2 : LoopInv p₀ pB st v (succs p₀ v) stL := hliL
    have hvoL : Ordered stL v := by
      rw [Ordered, hliL2.v_num]
      rfl
    obtain ⟨mv, hmv⟩ :=
      Option.isSome_iff_exists.mp ((hliL2.inv.ll_dom v).mpr hvoL)
    obtain ⟨ext, hext, hnewext⟩ := hliL2.stack_pres
    unfold tvPop
    have hcond : ((alookup stL.lowlinks v).getD 0 =
        (alookup stL.orders v).getD 0) ↔ (mv = st.order) := by
      show ((llOf stL v).getD 0 = (numOf stL v).getD 0) ↔ _
      rw [hmv, hliL2.v_num]
      exact Iff.rfl
    by_cases hpop : mv = st.order
    · rw [if_pos (hcond.mpr hpop)]
      have hdrop : stL.stack.drop st.stack.length = ext := by
        rw [hext]
        exact List.drop_left st.stack ext
      show VPost p₀ pB st
        (if 1 < (stL.stack.drop st.stack.length).length then
          popSt st.stack.length stL
            (pushSeg stL.prof (stL.stack.drop st.stack.length))
        else popSt st.stack.length stL stL.prof) v
      rw [hdrop]
      by_cases hlen : 1 < ext.length
      · rw [if_pos hlen]
        exact VPost_popP p₀ pB st v stL _ hinv hliL2 mv hmv hpop ext hext
          (InvRun_pop_cycle p₀ pB st v stL hinv hliL2 mv hmv hpop ext
            hext hnewext hlen)
      · rw [if_neg hlen]
        exact VPost_popP p₀ pB st v stL _ hinv hliL2 mv hmv hpop ext hext
          (InvRun_pop_trivial p₀ pB st v stL hinv hliL2 mv hmv hpop ext
            hext hnewext hlen)
    · rw [if_neg (fun hc => hpop (hcond.mp hc))]
      exact VPost_nopop p₀ pB st v stL hinv hliL2 mv hmv hpop

/-!
### The outer loop of find_cycles
-/

/-- The fresh per-run state `find_cycles` builds: zero counter, empty
stack and dicts, shared visited set, current profile. -/
def initSt (q : Profile) (vis : List ℕ) : TarjanState :=
  { order := 0, stack := [], orders := [], lowlinks := [],
    visited := vis, prof := q }

theorem Ordered_init (q : Profile) (vis : List ℕ) (x : ℕ) :
    ¬ Ordered (initSt q vis) x := by
  intro h
  have h2 : (none : Option ℕ).isSome = true := h
  simp at h2

theorem InvRun_init (p₀ q : Profile) (vis : List ℕ)
    (hshape : shape q = shape p₀) :
    InvRun p₀ q (initSt q vis) := by
  refine ⟨hshape, ?_, ?_, ?_, ?_, ?_, ?_, List.nodup_nil,
    List.Pairwise.nil, ?_, ?_, ?_, ?_, ?_, fun v _ => rfl, fun c _ => rfl,
    le_refl _⟩
  · intro x hx
    exact absurd hx (Ordered_init q vis x)
  · intro x n hn
    have h2 : (none : Option ℕ) = some n := hn
    cases h2
  · intro x y n hx _
    have h2 : (none : Option ℕ) = some n := hx
    cases h2
  · intro x
    constructor
    · intro h
      have h2 : (none : Option ℕ).isSome = true := h
      simp at h2
    · intro h
      exact absurd h (Ordered_init q vis x)
  · intro x n m hn _
    have h2 : (none : Option ℕ) = some n := hn
    cases h2
  · intro x hx
    exact absurd hx (List.not_mem_nil x)
  · intro x hx
    exact absurd hx (List.not_mem_nil x)
  · intro x hb
    exact absurd hb.1 (Ordered_init q vis x)
  · intro x hx
    exact absurd hx (Ordered_init q vis x)
  · intro x hb
    exact absurd hb.1 (Ordered_init q vis x)
  · intro x _
    rfl

/-- Invariant of the outer loop of `find_cycles`, relating the current
profile and the shared visited set to the original profile `p₀`:
every visited nontrivial-component function points to a Cycle holding
exactly its component, every trivial or unvisited function has no cycle
pointer. -/
structure GInv (p₀ q : Profile) (vis : List ℕ) : Prop where
  g_shape : shape q = shape p₀
  g_done : ∀ v ∈ vis, hasFunc p₀ v = true → NontrivialSCC p₀ v →
      ∃ c, funcCycle q v = some c ∧ MembersMatch q c (sccSet p₀ v)
  g_trivial : ∀ v, ¬ NontrivialSCC p₀ v → funcCycle q v = none
  g_undone : ∀ v, v ∉ vis → funcCycle q v = none

/-- One fresh Tarjan run from an unvisited function: the outer
invariant is preserved, the visited set grows, and the root is now
visited. -/
theorem run_step (p₀ q : Profile) (vis : List ℕ) (v : ℕ)
    (gi : GInv p₀ q vis) (hreal : hasFunc p₀ v = true) :
    GInv p₀ (tarjanVisit (q.functions.length + 1) (initSt q vis) v).prof
      (tarjanVisit (q.functions.length + 1) (initSt q vis) v).visited ∧
    (∀ x ∈ vis,
      x ∈ (tarjanVisit (q.functions.length + 1) (initSt q vis) v).visited) ∧
    v ∈ (tarjanVisit (q.functions.length + 1) (initSt q vis) v).visited := by
  have hinv0 := InvRun_init p₀ q vis gi.g_shape
  have hord0 : ¬ Ordered (initSt q vis) v := Ordered_init q vis v
  have hlenq : q.functions.length = p₀.functions.length := by
    have h := congrArg List.length gi.g_shape
    simpa [shape] using h
  have hfc0 : unorderedCount p₀ (initSt q vis) ≤ q.functions.length + 1 := by
    unfold unorderedCount
    have h1 := List.length_filter_le
      (fun k => (numOf (initSt q vis) k).isNone) (p₀.functions.map Func.id)
    rw [List.length_map] at h1
    omega
  have post := tarjanVisit_spec p₀ q (q.functions.length + 1)
    (initSt q vis) v hinv0 hord0 hreal hfc0
  obtain ⟨ext, hext, hnewe, hvor⟩ := post.stack_pres
  have hvord : Ordered (tarjanVisit (q.functions.length + 1)
      (initSt q vis) v) v := by
    rw [Ordered, post.v_num]
    rfl
  have hstack : (tarjanVisit (q.functions.length + 1)
      (initSt q vis) v).stack = [] := by
    rcases hvor with h | h
    · rw [hext, h]
      rfl
    · exfalso
      have hvstk : v ∈ (tarjanVisit (q.functions.length + 1)
          (initSt q vis) v).stack := by
        rw [hext]
        exact List.mem_append_right _ h
      have hvnew : NewO (initSt q vis)
          (tarjanVisit (q.functions.length + 1) (initSt q vis) v) v :=
        ⟨hvord, hord0⟩
      obtain ⟨m, hm⟩ :=
        Option.isSome_iff_exists.mp ((post.inv.ll_dom v).mpr hvord)
      have hlt := post.news_llstrict v hvnew hvstk (initSt q vis).order m
        post.v_num hm
      have h0 : (initSt q vis).order = 0 := rfl
      omega
  have hblack : ∀ x, Ordered (tarjanVisit (q.functions.length + 1)
      (initSt q vis) v) x → Black (tarjanVisit (q.functions.length + 1)
      (initSt q vis) v) x := by
    intro x hx
    refine ⟨hx, ?_⟩
    rw [hstack]
    exact List.not_mem_nil x
  refine ⟨⟨post.inv.shape_eq, ?_, ?_, ?_⟩, ?_, ?_⟩
  · intro x hx hxreal hnt
    rcases post.visited_new x hx with hold | hOrd
    · by_cases hOx : Ordered (tarjanVisit (q.functions.length + 1)
          (initSt q vis) v) x
      · exact post.inv.prof_done x (hblack x hOx) hnt
      · obtain ⟨c, hc, hm⟩ := gi.g_done x hold hxreal hnt
        have hc' : funcCycle (tarjanVisit (q.functions.length + 1)
            (initSt q vis) v).prof x = some c := by
          rw [post.inv.prof_keep x (fun hb => hOx hb.1)]
          exact hc
        refine ⟨c, hc', ?_⟩
        have hcv : c < q.cycleHeap.length := by
          apply cycleMembers_ne_nil_valid
          intro hnil
          have hxm := (hm x).mpr (InSCC.refl p₀ x)
          rw [hnil] at hxm
          exact List.not_mem_nil x hxm
        have hkeep := post.inv.heap_keep c hcv
        have hmem : cycleMembers (tarjanVisit (q.functions.length + 1)
            (initSt q vis) v).prof c = cycleMembers q c := by
          unfold cycleMembers
          rw [hkeep]
        intro w
        rw [hmem]
        exact hm w
    · exact post.inv.prof_done x (hblack x hOrd) hnt
  · intro x hnt
    rw [post.inv.prof_trivial x hnt]
    exact gi.g_trivial x hnt
  · intro x hx
    have hxvis : x ∉ vis := by
      intro hc
      exact hx (post.visited_mono x hc)
    have hOx : ¬ Ordered (tarjanVisit (q.functions.length + 1)
        (initSt q vis) v) x := by
      intro hc
      exact hx (post.inv.visited_sup x hc)
    rw [post.inv.prof_keep x (fun hb => hOx hb.1)]
    exact gi.g_undone x hxvis
  · intro x hx
    exact post.visited_mono x hx
  · exact post.inv.visited_sup v hvord

/-- Proof-side name for the outer-loop body of `find_cycles`. -/
def fcStep (acc : Profile × List ℕ) (f : Func) : Profile × List ℕ :=
  if f.id ∈ acc.2 then acc
  else
    let st := tarjanVisit (acc.1.functions.length + 1)
      { order := 0, stack := [], orders := [], lowlinks := [],
        visited := acc.2, prof := acc.1 } f.id
    (st.prof, st.visited)

/-- Proof-side name for the cycles-list rebuild of `find_cycles`. -/
def collectCycles (fs : List Func) : List ℕ :=
  fs.foldl
    (fun (cys : List ℕ) f =>
      match f.cycle with
      | some c => if c ∈ cys then cys else cys ++ [c]
      | none => cys)
    []

theorem find_cycles_eq (p : Profile) :
    find_cycles p =
      { (p.functions.foldl fcStep (p, ([] : List ℕ))).1 with
        cycles := collectCycles
          (p.functions.foldl fcStep (p, ([] : List ℕ))).1.functions } :=
  rfl

theorem fcStep_mem (q : Profile) (vis : List ℕ) (f : Func)
    (h : f.id ∈ vis) : fcStep (q, vis) f = (q, vis) := by
  unfold fcStep
  rw [if_pos h]

theorem fcStep_new (q : Profile) (vis : List ℕ) (f : Func)
    (h : f.id ∉ vis) :
    fcStep (q, vis) f =
      ((tarjanVisit (q.functions.length + 1) (initSt q vis) f.id).prof,
       (tarjanVisit (q.functions.length + 1) (initSt q vis) f.id).visited)
    := by
  unfold fcStep
  rw [if_neg h]
  rfl

/-- Folding the outer-loop body over any batch of functions preserves
the outer invariant, keeps old visited entries and visits every root. -/
theorem fcFold_spec (p₀ : Profile) :
    ∀ (fs : List Func) (q : Profile) (vis : List ℕ),
      GInv p₀ q vis →
      (∀ f ∈ fs, hasFunc p₀ f.id = true) →
      GInv p₀ (fs.foldl fcStep (q, vis)).1 (fs.foldl fcStep (q, vis)).2 ∧
      (∀ x ∈ vis, x ∈ (fs.foldl fcStep (q, vis)).2) ∧
      (∀ f ∈ fs, f.id ∈ (fs.foldl fcStep (q, vis)).2) := by
  intro fs
  induction fs with
  | nil =>
    intro q vis gi _
    exact ⟨gi, fun x hx => hx, fun f hf => absurd hf (List.not_mem_nil f)⟩
  | cons f rest ih =>
    intro q vis gi hreal
    rw [List.foldl_cons]
    by_cases hmem : f.id ∈ vis
    · rw [fcStep_mem q vis f hmem]
      have hres := ih q vis gi
        (fun g hg => hreal g (List.mem_cons_of_mem f hg))
      refine ⟨hres.1, hres.2.1, ?_⟩
      intro g hg
      rcases List.mem_cons.mp hg with h | h
      · rw [h]
        exact hres.2.1 f.id hmem
      · exact hres.2.2 g h
    · rw [fcStep_new q vis f hmem]
      obtain ⟨gi', hvismono, hvin⟩ := run_step p₀ q vis f.id gi
        (hreal f (List.mem_cons_self f rest))
      have hres := ih _ _ gi'
        (fun g hg => hreal g (List.mem_cons_of_mem f hg))
      refine ⟨hres.1, ?_, ?_⟩
      · intro x hx
        exact hres.2.1 x (hvismono x hx)
      · intro g hg
        rcases List.mem_cons.mp hg with h | h
        · rw [h]
          exact hres.2.1 f.id hvin
        · exact hres.2.2 g h

/-- Membership in the rebuilt cycles list is exactly being pointed to by
some function. -/
theorem mem_collectCycles (fs : List Func) (c : ℕ) :
    c ∈ collectCycles fs ↔ ∃ f ∈ fs, f.cycle = some c := by
  have main : ∀ (l : List Func) (acc : List ℕ),
      c ∈ l.foldl
        (fun (cys : List ℕ) f =>
          match f.cycle with
          | some c0 => if c0 ∈ cys then cys else cys ++ [c0]
          | none => cys) acc ↔
      c ∈ acc ∨ ∃ f ∈ l, f.cycle = some c := by
    intro l
    induction l with
    | nil => simp
    | cons f rest ihl =>
      intro acc
      rw [List.foldl_cons]
      cases hf : f.cycle with
      | none =>
        rw [ihl]
        constructor
        · rintro (h | ⟨g, hg, hgc⟩)
          · exact Or.inl h
          · exact Or.inr ⟨g, List.mem_cons_of_mem f hg, hgc⟩
        · rintro (h | ⟨g, hg, hgc⟩)
          · exact Or.inl h
          · rcases List.mem_cons.mp hg with h2 | h2
            · rw [h2] at hgc
              rw [hgc] at hf
              cases hf
            · exact Or.inr ⟨g, h2, hgc⟩
      | some c0 =>
        have hred : (match some c0 with
            | some c1 => if c1 ∈ acc then acc else acc ++ [c1]
            | none => acc) = if c0 ∈ acc then acc else acc ++ [c0] := rfl
        rw [hred]
        by_cases hin : c0 ∈ acc
        · rw [if_pos hin, ihl]
          constructor
          · rintro (h | ⟨g, hg, hgc⟩)
            · exact Or.inl h
            · exact Or.inr ⟨g, List.mem_cons_of_mem f hg, hgc⟩
          · rintro (h | ⟨g, hg, hgc⟩)
            · exact Or.inl h
            · rcases List.mem_cons.mp hg with h2 | h2
              · rw [h2] at hgc
                rw [hgc] at hf
                have : c0 = c := (Option.some.inj hf).symm
                exact Or.inl (this ▸ hin)
              · exact Or.inr ⟨g, h2, hgc⟩
        · rw [if_neg hin, ihl]
          constructor
          · rintro (h | ⟨g, hg, hgc⟩)
            · rcases List.mem_append.mp h with h2 | h2
              · exact Or.inl h2
              · have : c = c0 := by simpa using h2
                exact Or.inr ⟨f, List.mem_cons_self f rest, by rw [hf, this]⟩
            · exact Or.inr ⟨g, List.mem_cons_of_mem f hg, hgc⟩
          · rintro (h | ⟨g, hg, hgc⟩)
            · exact Or.inl (List.mem_append_left _ h)
            · rcases List.mem_cons.mp hg with h2 | h2
              · rw [h2] at hgc
                rw [hgc] at hf
                have : c = c0 := (Option.some.inj hf)
                exact Or.inl (List.mem_append_right _ (by simp [this]))
              · exact Or.inr ⟨g, h2, hgc⟩
  rw [show collectCycles fs = fs.foldl
    (fun (cys : List ℕ) f =>
      match f.cycle with
      | some c0 => if c0 ∈ cys then cys else cys ++ [c0]
      | none => cys) [] from rfl, main]
  simp

/-- Full characterisation of `find_cycles` on a profile with unique
function ids and no pre-existing cycle assignments: the observable Cycle
membership sets are exactly the nontrivial strongly connected components
of the call graph. -/
theorem find_cycles_membership (p : Profile)
    (hnd : (p.functions.map Func.id).Nodup)
    (hnone : ∀ f ∈ p.functions, f.cycle = none) :
    membershipSets (find_cycles p) =
      { S | ∃ v, hasFunc p v = true ∧ NontrivialSCC p v ∧
        S = sccSet p v } := by
  have hfcnone : ∀ v, funcCycle p v = none := by
    intro v
    unfold funcCycle
    cases hl : lookupFunc p v with
    | none => rfl
    | some f => exact hnone f (List.mem_of_find?_eq_some hl)
  have gi0 : GInv p p [] :=
    ⟨rfl, fun v hv => absurd hv (List.not_mem_nil v),
     fun v _ => hfcnone v, fun v _ => hfcnone v⟩
  have hrealall : ∀ f ∈ p.functions, hasFunc p f.id = true := by
    intro f hf
    show p.functions.any (fun g => g.id = f.id) = true
    rw [List.any_eq_true]
    exact ⟨f, hf, by simp⟩
  obtain ⟨gi, hvisold, hvisall⟩ :=
    fcFold_spec p p.functions p ([] : List ℕ) gi0 hrealall
  have hids : (p.functions.foldl fcStep (p, ([] : List ℕ))).1.functions.map
      Func.id = p.functions.map Func.id := by
    have h := congrArg (List.map Prod.fst) gi.g_shape
    simpa [shape, List.map_map, Function.comp] using h
  have hndq : ((p.functions.foldl fcStep
      (p, ([] : List ℕ))).1.functions.map Func.id).Nodup := by
    rw [hids]
    exact hnd
  rw [find_cycles_eq]
  ext S
  simp only [membershipSets, Set.mem_setOf_eq]
  constructor
  · rintro ⟨c, hc, hS⟩
    have hc2 : c ∈ collectCycles
        (p.functions.foldl fcStep (p, ([] : List ℕ))).1.functions := hc
    obtain ⟨f, hf, hfcyc⟩ := (mem_collectCycles _ c).mp hc2
    have hlook := find?_id_of_nodup _ hndq f hf
    have hfunc : funcCycle (p.functions.foldl fcStep
        (p, ([] : List ℕ))).1 f.id = some c := by
      unfold funcCycle
      show (match lookupFunc (p.functions.foldl fcStep
        (p, ([] : List ℕ))).1 f.id with
        | some g => g.cycle
        | none => none) = some c
      rw [show lookupFunc (p.functions.foldl fcStep
        (p, ([] : List ℕ))).1 f.id = some f from hlook]
      exact hfcyc
    have hreal : hasFunc p f.id = true := by
      rw [← hasFunc_congr gi.g_shape, hasFunc_eq_isSome,
        show lookupFunc (p.functions.foldl fcStep
          (p, ([] : List ℕ))).1 f.id = some f from hlook]
      rfl
    have hnt : NontrivialSCC p f.id := by
      by_contra hcon
      rw [gi.g_trivial f.id hcon] at hfunc
      cases hfunc
    have hvis : f.id ∈ (p.functions.foldl fcStep (p, ([] : List ℕ))).2 := by
      have hmem : f.id ∈ p.functions.map Func.id := by
        rw [← hids]
        exact List.mem_map_of_mem Func.id hf
      obtain ⟨g, hg, hgid⟩ := List.mem_map.mp hmem
      rw [← hgid]
      exact hvisall g hg
    obtain ⟨c', hc', hm⟩ := gi.g_done f.id hvis hreal hnt
    have hcc : c' = c := by
      rw [hfunc] at hc'
      exact (Option.some.inj hc').symm
    refine ⟨f.id, hreal, hnt, ?_⟩
    rw [hS]
    ext x
    simp only [Set.mem_setOf_eq]
    rw [← hcc] at *
    exact hm x
  · rintro ⟨v, hreal, hnt, hS⟩
    have hvmem : v ∈ p.functions.map Func.id := mem_ids_of_hasFunc p v hreal
    obtain ⟨g, hg, hgid⟩ := List.mem_map.mp hvmem
    have hvis : v ∈ (p.functions.foldl fcStep (p, ([] : List ℕ))).2 := by
      rw [← hgid]
      exact hvisall g hg
    obtain ⟨c, hc, hm⟩ := gi.g_done v hvis hreal hnt
    have hcmem : c ∈ collectCycles
        (p.functions.foldl fcStep (p, ([] : List ℕ))).1.functions := by
      apply (mem_collectCycles _ c).mpr
      unfold funcCycle at hc
      cases hl : lookupFunc (p.functions.foldl fcStep
          (p, ([] : List ℕ))).1 v with
      | none => rw [hl] at hc; cases hc
      | some f' =>
        rw [hl] at hc
        exact ⟨f', List.mem_of_find?_eq_some hl, hc⟩
    refine ⟨c, hcmem, ?_⟩
    rw [hS]
    ext x
    simp only [Set.mem_setOf_eq]
    exact (hm x).symm

/-!
### Insertion order invariance of the call graph
-/

theorem lookupFunc_perm (p₁ p₂ : Profile)
    (hperm : p₂.functions.Perm p₁.functions)
    (hnd₂ : (p₂.functions.map Func.id).Nodup) (v : ℕ) :
    lookupFunc p₂ v = lookupFunc p₁ v := by
  cases hl : lookupFunc p₁ v with
  | some f =>
    have hf := List.mem_of_find?_eq_some hl
    have hfid : f.id = v := by simpa using List.find?_some hl
    have hf2 : f ∈ p₂.functions := hperm.mem_iff.mpr hf
    have hfind := find?_id_of_nodup p₂.functions hnd₂ f hf2
    rw [hfid] at hfind
    exact hfind
  | none =>
    cases hl2 : lookupFunc p₂ v with
    | none => rfl
    | some g =>
      exfalso
      have hg := List.mem_of_find?_eq_some hl2
      have hgid : g.id = v := by simpa using List.find?_some hl2
      have hg1 : g ∈ p₁.functions := hperm.mem_iff.mp hg
      have hsome : (lookupFunc p₁ v).isSome = true := by
        rw [← hasFunc_eq_isSome]
        show p₁.functions.any (fun f => f.id = v) = true
        rw [List.any_eq_true]
        exact ⟨g, hg1, by simp [hgid]⟩
      rw [hl] at hsome
      simp at hsome

theorem hasFunc_perm (p₁ p₂ : Profile)
    (hperm : p₂.functions.Perm p₁.functions)
    (hnd₂ : (p₂.functions.map Func.id).Nodup) (v : ℕ) :
    hasFunc p₂ v = hasFunc p₁ v := by
  rw [hasFunc_eq_isSome, hasFunc_eq_isSome,
    lookupFunc_perm p₁ p₂ hperm hnd₂ v]

theorem succs_perm (p₁ p₂ : Profile)
    (hperm : p₂.functions.Perm p₁.functions)
    (hnd₂ : (p₂.functions.map Func.id).Nodup) (v : ℕ) :
    succs p₂ v = succs p₁ v := by
  unfold succs
  rw [lookupFunc_perm p₁ p₂ hperm hnd₂ v]

theorem EdgeP_perm (p₁ p₂ : Profile)
    (hperm : p₂.functions.Perm p₁.functions)
    (hnd₂ : (p₂.functions.map Func.id).Nodup) :
    EdgeP p₂ = EdgeP p₁ := by
  funext a b
  unfold EdgeP
  rw [hasFunc_perm p₁ p₂ hperm hnd₂ a, hasFunc_perm p₁ p₂ hperm hnd₂ b,
    succs_perm p₁ p₂ hperm hnd₂ a]

theorem sccSet_perm (p₁ p₂ : Profile)
    (hperm : p₂.functions.Perm p₁.functions)
    (hnd₂ : (p₂.functions.map Func.id).Nodup) (v : ℕ) :
    sccSet p₂ v = sccSet p₁ v := by
  unfold sccSet InSCC ReachP
  rw [EdgeP_perm p₁ p₂ hperm hnd₂]

theorem NontrivialSCC_perm (p₁ p₂ : Profile)
    (hperm : p₂.functions.Perm p₁.functions)
    (hnd₂ : (p₂.functions.map Func.id).Nodup) (v : ℕ) :
    NontrivialSCC p₂ v ↔ NontrivialSCC p₁ v := by
  unfold NontrivialSCC InSCC ReachP
  rw [EdgeP_perm p₁ p₂ hperm hnd₂]

/-- C8: `find_cycles` is deterministic with respect to insertion order:
on two profiles whose function dicts hold the same functions (same ids,
same call edges, same values) in different insertion order, with unique
ids and no pre-existing cycle assignments, the resulting collections of
Cycle membership sets coincide. -/
theorem C8_find_cycles_order_independent (p₁ p₂ : Profile)
    (hperm : p₂.functions.Perm p₁.functions)
    (hnd : (p₁.functions.map Func.id).Nodup)
    (hnone : ∀ f ∈ p₁.functions, f.cycle = none) :
    membershipSets (find_cycles p₂) = membershipSets (find_cycles p₁) := by
  have hnd₂ : (p₂.functions.map Func.id).Nodup :=
    ((hperm.map Func.id).nodup_iff).mpr hnd
  have hnone₂ : ∀ f ∈ p₂.functions, f.cycle = none := fun f hf =>
    hnone f (hperm.mem_iff.mp hf)
  rw [find_cycles_membership p₁ hnd hnone,
    find_cycles_membership p₂ hnd₂ hnone₂]
  ext S
  simp only [Set.mem_setOf_eq]
  constructor
  · rintro ⟨v, h1, h2, h3⟩
    refine ⟨v, ?_, ?_, ?_⟩
    · rw [← hasFunc_perm p₁ p₂ hperm hnd₂ v]
      exact h1
    · exact (NontrivialSCC_perm p₁ p₂ hperm hnd₂ v).mp h2
    · rw [h3, sccSet_perm p₁ p₂ hperm hnd₂ v]
  · rintro ⟨v, h1, h2, h3⟩
    refine ⟨v, ?_, ?_, ?_⟩
    · rw [hasFunc_perm p₁ p₂ hperm hnd₂ v]
      exact h1
    · exact (NontrivialSCC_perm p₁ p₂ hperm hnd₂ v).mpr h2
    · rw [h3, ← sccSet_perm p₁ p₂ hperm hnd₂ v]

/-- Witness functions for C8: two mutually recursive functions. -/
def wC8f0 : Func := ⟨0, [⟨1, none, none, []⟩], none, none, []⟩

def wC8f1 : Func := ⟨1, [⟨0, none, none, []⟩], none, none, []⟩

/-- The two insertion orders of the same two-function graph. -/
def pC8a : Profile := ⟨[wC8f0, wC8f1], [], [], []⟩

def pC8b : Profile := ⟨[wC8f1, wC8f0], [], [], []⟩

theorem C8_find_cycles_order_independent_witness :
    pC8b.functions.Perm pC8a.functions ∧
    (pC8a.functions.map Func.id).Nodup ∧
    (∀ f ∈ pC8a.functions, f.cycle = none) ∧
    membershipSets (find_cycles pC8b) = membershipSets (find_cycles pC8a) :=
  ⟨List.Perm.swap wC8f0 wC8f1 [], by decide, by decide,
   C8_find_cycles_order_independent pC8a pC8b
     (List.Perm.swap wC8f0 wC8f1 []) (by decide) (by decide)⟩

end Gprof2dot
